import Mathlib

/-!
# Verification of the protolint-vscode token-location engine

Shallow embedding of `src/protobuf-parser.ts` (the token-location engine of
the protolint VS Code extension) and proofs of the specified properties.

Conventions of the embedding:
* VS Code `Position`/`Range` objects become `Pos`/`Rng` structures over `Nat`
  (zero-based line and character offsets).  VS Code guarantees that every
  constructed `Range` has `start ≤ end`; this invariant is carried as the
  explicit predicate `Rng.wf` in theorem hypotheses.
* A `TextLine` is a line number plus the line's text (a `List Char`); its
  range is `[0, text.length)` on that line, exactly as in VS Code.
* JavaScript `RegExp` values are modelled by the `RegexMatcher` structure:
  an abstract `exec` function together with the two facts ECMAScript
  guarantees for a global regex executed at a given `lastIndex` (the match
  starts at or after `lastIndex` and lies within the text).
* The fallible TypeScript `TResult` values become `Except`.
* `Array.prototype.sort` (stable, in place) becomes the stable insertion
  sort `sortByStart`; the in-place mutation of the caller's array is
  modelled by the explicit post-state function `excludeLineRangesPost`.
-/

/-- A zero-based text position, as VS Code `Position`. -/
structure Pos where
  line : Nat
  character : Nat
deriving DecidableEq, Repr

/-- VS Code `Position.isBefore`: lexicographic strict order. -/
def Pos.isBefore (a b : Pos) : Bool :=
  a.line < b.line || (a.line = b.line && a.character < b.character)

/-- VS Code `Position.isBeforeOrEqual`. -/
def Pos.isBeforeOrEqual (a b : Pos) : Bool :=
  a.line < b.line || (a.line = b.line && a.character ≤ b.character)

/-- A text range, as VS Code `Range` (start/end positions). -/
structure Rng where
  startLine : Nat
  startChar : Nat
  endLine : Nat
  endChar : Nat
deriving DecidableEq, Repr

/-- The start position of a range. -/
def Rng.startPos (r : Rng) : Pos := ⟨r.startLine, r.startChar⟩

/-- The end position of a range. -/
def Rng.endPos (r : Rng) : Pos := ⟨r.endLine, r.endChar⟩

/-- The VS Code `Range` constructor invariant: start is not after end.
Every `Range` object VS Code hands out satisfies this (the constructor
swaps the endpoints otherwise). -/
def Rng.wf (r : Rng) : Prop :=
  r.startPos.isBeforeOrEqual r.endPos = true

instance (r : Rng) : Decidable r.wf := by unfold Rng.wf; infer_instance

/-- VS Code `Range.contains(position)`:
`!position.isBefore(this.start) && !this.end.isBefore(position)`. -/
def Rng.containsPos (r : Rng) (p : Pos) : Bool :=
  !(p.isBefore r.startPos) && !(r.endPos.isBefore p)

/-- VS Code `Range.contains(range)`: contains both endpoints. -/
def Rng.containsRng (r other : Rng) : Bool :=
  r.containsPos other.startPos && r.containsPos other.endPos

/-- Membership of a character offset in a range, for ranges lying on a
single known line (all ranges manipulated by the engine after the
containment check are of this shape). -/
def Rng.memChar (r : Rng) (c : Nat) : Prop :=
  r.startChar ≤ c ∧ c < r.endChar

instance (r : Rng) (c : Nat) : Decidable (r.memChar c) := by
  unfold Rng.memChar; infer_instance

/-- Two single-line ranges do not overlap: one ends at or before the other
starts (interval order). -/
def Rng.noOverlap (r s : Rng) : Prop :=
  r.endChar ≤ s.startChar ∨ s.endChar ≤ r.startChar

instance (r s : Rng) : Decidable (r.noOverlap s) := by
  unfold Rng.noOverlap; infer_instance

/-- A document line, as VS Code `TextLine`: its zero-based number and its
text (without the line break). -/
structure TextLine where
  lineNumber : Nat
  text : List Char
deriving DecidableEq, Repr

/-- VS Code `TextLine.range`: from character 0 to the line's length. -/
def TextLine.range (l : TextLine) : Rng :=
  ⟨l.lineNumber, 0, l.lineNumber, l.text.length⟩

/-- `IMatchRange` of the source: the matched text and its range. -/
structure MatchRange where
  fullMatch : List Char
  range : Rng
deriving DecidableEq, Repr

/-- `ITokenRange` of the source: a `MatchRange` plus the `closed` flag. -/
structure TokenRange where
  fullMatch : List Char
  range : Rng
  closed : Bool
deriving DecidableEq, Repr

/-- `ExcludeLineRangesErrorCode` of the source. -/
inductive ExcludeLineRangesErrorCode where
  | RangeBeyondLine
  | RangeIntersection
deriving DecidableEq, Repr

/-- `LookupErrorCode` of the source. -/
inductive LookupErrorCode where
  | InvalidExcludeRanges
  | LineNumber
  | NotFound
  | NotImplemented
  | UnexpectedCommentOpen
  | UnexpectedEnumValueName
  | UnexpectedFieldType
  | UnexpectedGroup
deriving DecidableEq, Repr

/-- `TokenKind` of the source. -/
inductive TokenKind where
  | Comment
  | Enum
  | EnumName
  | EnumValueName
  | FieldCardinality
  | FieldName
  | FieldType
  | Message
  | MessageName
  | Package
  | PackageName
  | Required
  | Rpc
  | RpcName
  | Service
  | ServiceName
deriving DecidableEq, Repr

/-! ## Range Exclusion (`excludeLineRanges`, source lines 718-762) -/

/-- The sort key used by the comparator
`(a, b) => a.range.start.character - b.range.start.character`. -/
def startKey (r : TokenRange) : Nat := r.range.startChar

/-- Insert into a list sorted ascending by `startKey`, before the first
element with a key not smaller — the unique stable position.  Together
with `sortByStart` this is the (unique) stable ascending sort, which is
what `Array.prototype.sort` with the numeric comparator performs. -/
def insertSorted (x : TokenRange) : List TokenRange → List TokenRange
  | [] => [x]
  | y :: ys => if startKey y < startKey x then y :: insertSorted x ys else x :: y :: ys

/-- Stable insertion sort ascending by `startKey`, modelling
`excludedRanges.sort((a, b) => a.range.start.character - b.range.start.character)`. -/
def sortByStart : List TokenRange → List TokenRange
  | [] => []
  | x :: xs => insertSorted x (sortByStart xs)

/-- The flattened `[r.start.character, r.end.character, ...]` contribution of
the sorted exclusion ranges to the `edges` array. -/
def edgesOf (rs : List TokenRange) : List Nat :=
  rs.flatMap fun r => [r.range.startChar, r.range.endChar]

/-- The pair-walk of the `edges` array (source lines 743-756): consecutive
pairs `(edges[i], edges[i+1])` are checked for `edges[i] > edges[i+1]`
(error) and emitted as a range when non-degenerate. -/
def buildRanges (lineNumber : Nat) : List Nat → Except Unit (List Rng)
  | a :: b :: rest =>
    if b < a then .error ()
    else
      match buildRanges lineNumber rest with
      | .error e => .error e
      | .ok tail =>
        .ok (if a = b then tail else ⟨lineNumber, a, lineNumber, b⟩ :: tail)
  | _ => .ok []

/-- `excludeLineRanges` (source lines 718-762): check containment, sort the
exclusions by start character, walk the edge pairs. -/
def excludeLineRanges (line : TextLine) (excludedRanges : List TokenRange) :
    Except ExcludeLineRangesErrorCode (List Rng) :=
  if excludedRanges.all fun r => line.range.containsRng r.range then
    match buildRanges line.lineNumber
        (line.range.startChar ::
          (edgesOf (sortByStart excludedRanges) ++ [line.range.endChar])) with
    | .error _ => .error .RangeIntersection
    | .ok value => .ok value
  else .error .RangeBeyondLine

/-- The state of the caller's `excludedRanges` array after a call to
`excludeLineRanges`.  The source sorts the array **in place** (line 729)
immediately after the containment check passes and before the edge walk,
so the caller observes the sorted permutation whenever containment holds
(whether the call then succeeds or fails with `RangeIntersection`), and
the untouched array when containment fails. -/
def excludeLineRangesPost (line : TextLine) (excludedRanges : List TokenRange) :
    List TokenRange :=
  if excludedRanges.all fun r => line.range.containsRng r.range then
    sortByStart excludedRanges
  else excludedRanges

/-! ## Lemmas about the stable sort -/

theorem insertSorted_perm (x : TokenRange) (l : List TokenRange) :
    (insertSorted x l).Perm (x :: l) := by
  induction l with
  | nil => simp [insertSorted]
  | cons y ys ih =>
    unfold insertSorted
    by_cases h : startKey y < startKey x
    · simp only [if_pos h]
      exact List.Perm.trans (ih.cons y) (List.Perm.swap x y ys)
    · simp only [if_neg h]
      exact List.Perm.refl _

theorem sortByStart_perm (l : List TokenRange) : (sortByStart l).Perm l := by
  induction l with
  | nil => simp [sortByStart]
  | cons x xs ih =>
    exact List.Perm.trans (insertSorted_perm x (sortByStart xs)) (ih.cons x)

theorem mem_insertSorted {x y : TokenRange} {l : List TokenRange} :
    y ∈ insertSorted x l ↔ y = x ∨ y ∈ l := by
  rw [(insertSorted_perm x l).mem_iff, List.mem_cons]

theorem insertSorted_sorted (x : TokenRange) {l : List TokenRange}
    (h : l.Pairwise fun a b => startKey a ≤ startKey b) :
    (insertSorted x l).Pairwise fun a b => startKey a ≤ startKey b := by
  induction l with
  | nil => simp [insertSorted]
  | cons y ys ih =>
    rw [List.pairwise_cons] at h
    unfold insertSorted
    by_cases hyx : startKey y < startKey x
    · simp only [if_pos hyx]
      rw [List.pairwise_cons]
      refine ⟨fun z hz => ?_, ih h.2⟩
      rcases mem_insertSorted.mp hz with hz | hz
      · exact hz ▸ Nat.le_of_lt hyx
      · exact h.1 z hz
    · simp only [if_neg hyx]
      rw [List.pairwise_cons]
      refine ⟨fun z hz => ?_, List.pairwise_cons.mpr h⟩
      rcases List.mem_cons.mp hz with hz | hz
      · exact hz ▸ Nat.le_of_not_lt hyx
      · exact Nat.le_trans (Nat.le_of_not_lt hyx) (h.1 z hz)

theorem sortByStart_sorted (l : List TokenRange) :
    (sortByStart l).Pairwise fun a b => startKey a ≤ startKey b := by
  induction l with
  | nil => simp [sortByStart]
  | cons x xs ih => exact insertSorted_sorted x ih

theorem insertSorted_filter (x : TokenRange) (l : List TokenRange) (k : Nat) :
    (insertSorted x l).filter (fun r => startKey r == k) =
      if startKey x = k then x :: l.filter (fun r => startKey r == k)
      else l.filter (fun r => startKey r == k) := by
  induction l with
  | nil =>
    by_cases hx : startKey x = k <;>
      simp [insertSorted, List.filter_cons, hx]
  | cons y ys ih =>
    unfold insertSorted
    by_cases hyx : startKey y < startKey x
    · simp only [if_pos hyx]
      by_cases hx : startKey x = k
      · have hy : ¬ startKey y = k := by omega
        simp [List.filter_cons, hy, ih, hx]
      · by_cases hy : startKey y = k <;> simp [List.filter_cons, hy, ih, hx]
    · simp only [if_neg hyx]
      by_cases hx : startKey x = k <;>
        by_cases hy : startKey y = k <;>
          simp [List.filter_cons, hx, hy]

theorem sortByStart_filter (l : List TokenRange) (k : Nat) :
    (sortByStart l).filter (fun r => startKey r == k) =
      l.filter (fun r => startKey r == k) := by
  induction l with
  | nil => rfl
  | cons x xs ih =>
    show (insertSorted x (sortByStart xs)).filter _ = _
    rw [insertSorted_filter]
    by_cases hx : startKey x = k <;> simp [List.filter_cons, hx, ih]

/-- Two lists that are permutations of each other and both strictly sorted
by `startKey` are equal. -/
theorem sorted_strict_eq_of_perm {l₁ l₂ : List TokenRange}
    (hp : l₁.Perm l₂) (h₁ : l₁.Pairwise fun a b => startKey a < startKey b)
    (h₂ : l₂.Pairwise fun a b => startKey a < startKey b) : l₁ = l₂ := by
  have : IsAntisymm TokenRange (fun a b => startKey a < startKey b) :=
    ⟨fun a b hab hba => absurd (Nat.lt_trans hab hba) (Nat.lt_irrefl _)⟩
  exact List.eq_of_perm_of_sorted hp h₁ h₂

/-! ## The edge walk as a chain of gaps -/

/-- The chain condition the edge walk of `excludeLineRanges` verifies:
starting from the line start, each exclusion range begins at or after the
previous edge, and the final edge is at or before the line end. -/
def chainOK (left right : Nat) : List TokenRange → Prop
  | [] => left ≤ right
  | r :: rest => left ≤ r.range.startChar ∧ chainOK r.range.endChar right rest

instance (left right : Nat) (rs : List TokenRange) :
    Decidable (chainOK left right rs) := by
  induction rs generalizing left with
  | nil => unfold chainOK; infer_instance
  | cons r rest ih => unfold chainOK; exact @instDecidableAnd _ _ _ (ih _)

/-- The edge-pair walk of `excludeLineRanges`, phrased structurally over the
sorted exclusion list: emit the gap before each exclusion range, then the
gap between the last exclusion and the line end. -/
def gaps (L left right : Nat) : List TokenRange → Except Unit (List Rng)
  | [] =>
    if right < left then .error ()
    else .ok (if left = right then [] else [⟨L, left, L, right⟩])
  | r :: rest =>
    if r.range.startChar < left then .error ()
    else
      match gaps L r.range.endChar right rest with
      | .error e => .error e
      | .ok tail =>
        .ok (if left = r.range.startChar then tail
             else ⟨L, left, L, r.range.startChar⟩ :: tail)

/-- `buildRanges` on the edges array is exactly the structural gap walk. -/
theorem buildRanges_eq_gaps (L : Nat) :
    ∀ (rs : List TokenRange) (left right : Nat),
      buildRanges L (left :: (edgesOf rs ++ [right])) = gaps L left right rs := by
  intro rs
  induction rs with
  | nil =>
    intro left right
    simp only [edgesOf, List.flatMap_nil, List.nil_append]
    show (if right < left then _ else _) = _
    unfold gaps
    by_cases h : right < left
    · simp only [buildRanges, if_pos h]
    · simp only [buildRanges, if_neg h]
  | cons r rest ih =>
    intro left right
    simp only [edgesOf, List.flatMap_cons, List.cons_append, List.append_assoc]
    show buildRanges L
      (left :: r.range.startChar :: (r.range.endChar :: (edgesOf rest ++ [right]))) = _
    unfold buildRanges gaps
    rw [← ih r.range.endChar right]

theorem chainOK_le_right :
    ∀ {rs : List TokenRange} {left right : Nat}, chainOK left right rs →
      (∀ r ∈ rs, r.range.startChar ≤ r.range.endChar) → left ≤ right := by
  intro rs
  induction rs with
  | nil => intro left right h _; exact h
  | cons r rest ih =>
    intro left right h hwf
    have h0 : left ≤ r.range.startChar := h.1
    have h1 : r.range.startChar ≤ r.range.endChar := hwf r (by simp)
    have h2 := ih h.2 fun s hs => hwf s (List.mem_cons_of_mem _ hs)
    omega

theorem chainOK_mem :
    ∀ {rs : List TokenRange} {left right : Nat}, chainOK left right rs →
      (∀ r ∈ rs, r.range.startChar ≤ r.range.endChar) →
      ∀ r ∈ rs, left ≤ r.range.startChar ∧ r.range.endChar ≤ right := by
  intro rs
  induction rs with
  | nil => intro left right _ _ r hr; cases hr
  | cons r rest ih =>
    intro left right h hwf s hs
    have hwfr : r.range.startChar ≤ r.range.endChar := hwf r (by simp)
    have hwfrest : ∀ t ∈ rest, t.range.startChar ≤ t.range.endChar :=
      fun t ht => hwf t (List.mem_cons_of_mem _ ht)
    have h0 : left ≤ r.range.startChar := h.1
    rcases List.mem_cons.mp hs with hs | hs
    · subst hs
      exact ⟨h0, chainOK_le_right h.2 hwfrest⟩
    · have := ih h.2 hwfrest s hs
      omega

theorem chainOK_of_gaps_ok (L : Nat) :
    ∀ {rs : List TokenRange} {left right : Nat} {out : List Rng},
      gaps L left right rs = .ok out → chainOK left right rs := by
  intro rs
  induction rs with
  | nil =>
    intro left right out h
    unfold gaps at h
    by_cases hlr : right < left
    · rw [if_pos hlr] at h; cases h
    · exact Nat.le_of_not_lt hlr
  | cons r rest ih =>
    intro left right out h
    unfold gaps at h
    by_cases hla : r.range.startChar < left
    · rw [if_pos hla] at h; cases h
    · rw [if_neg hla] at h
      refine ⟨Nat.le_of_not_lt hla, ?_⟩
      cases htail : gaps L r.range.endChar right rest with
      | error e => rw [htail] at h; cases h
      | ok tail => exact ih htail

/-- Central lemma: under the chain condition, the gap walk succeeds and its
output exactly complements the exclusion ranges within `[left, right)`,
is ordered, positive-width, and disjoint from the exclusions. -/
theorem gaps_spec (L : Nat) :
    ∀ (rs : List TokenRange) (left right : Nat),
      chainOK left right rs →
      (∀ r ∈ rs, r.range.startChar ≤ r.range.endChar) →
      ∃ out, gaps L left right rs = .ok out ∧
        (∀ c : Nat, ((∃ g ∈ out, g.memChar c) ∨ (∃ r ∈ rs, r.range.memChar c)) ↔
          (left ≤ c ∧ c < right)) ∧
        (∀ g ∈ out, left ≤ g.startChar ∧ g.startChar < g.endChar ∧
          g.endChar ≤ right ∧ g.startLine = L ∧ g.endLine = L) ∧
        out.Pairwise (fun g h => g.endChar ≤ h.startChar) ∧
        (∀ g ∈ out, ∀ r ∈ rs, g.noOverlap r.range) := by
  intro rs
  induction rs with
  | nil =>
    intro left right hchain _
    have hlr : left ≤ right := hchain
    by_cases heq : left = right
    · refine ⟨[], ?_, ?_, by simp, by simp, by simp⟩
      · unfold gaps; rw [if_neg (Nat.not_lt.mpr hlr), if_pos heq]
      · intro c; subst heq; simp [Rng.memChar]
    · refine ⟨[⟨L, left, L, right⟩], ?_, ?_, ?_, by simp, by simp⟩
      · unfold gaps; rw [if_neg (Nat.not_lt.mpr hlr), if_neg heq]
      · intro c; simp [Rng.memChar]
      · intro g hg
        rw [List.mem_singleton] at hg
        subst hg
        refine ⟨Nat.le_refl _, ?_, Nat.le_refl _, rfl, rfl⟩
        show left < right
        omega
  | cons r rest ih =>
    intro left right hchain hwf
    have hla : left ≤ r.range.startChar := hchain.1
    have hchain' : chainOK r.range.endChar right rest := hchain.2
    have hab : r.range.startChar ≤ r.range.endChar := hwf r (by simp)
    have hwfrest : ∀ s ∈ rest, s.range.startChar ≤ s.range.endChar :=
      fun s hs => hwf s (List.mem_cons_of_mem _ hs)
    have hbr : r.range.endChar ≤ right := chainOK_le_right hchain' hwfrest
    have hmem := chainOK_mem hchain' hwfrest
    obtain ⟨tail, htail, hiff, hbounds, hpw, hno⟩ := ih r.range.endChar right hchain' hwfrest
    have hgaps : gaps L left right (r :: rest) =
        .ok (if left = r.range.startChar then tail
             else ⟨L, left, L, r.range.startChar⟩ :: tail) := by
      unfold gaps
      rw [if_neg (Nat.not_lt.mpr hla), htail]
    by_cases hleq : left = r.range.startChar
    · rw [if_pos hleq] at hgaps
      refine ⟨tail, hgaps, ?_, ?_, hpw, ?_⟩
      · intro c
        constructor
        · rintro (hg | ⟨s, hs, hcs⟩)
          · have := (hiff c).mp (Or.inl hg); omega
          · rcases List.mem_cons.mp hs with hs | hs
            · rw [hs] at hcs
              have hc1 : r.range.startChar ≤ c := hcs.1
              have hc2 : c < r.range.endChar := hcs.2
              omega
            · have := (hiff c).mp (Or.inr ⟨s, hs, hcs⟩); omega
        · intro hc
          by_cases hcb : c < r.range.endChar
          · exact Or.inr ⟨r, by simp, ⟨by omega, hcb⟩⟩
          · rcases (hiff c).mpr ⟨by omega, hc.2⟩ with hg | ⟨s, hs, hcs⟩
            · exact Or.inl hg
            · exact Or.inr ⟨s, List.mem_cons_of_mem _ hs, hcs⟩
      · intro g hg
        have := hbounds g hg
        exact ⟨by omega, this.2.1, this.2.2.1, this.2.2.2⟩
      · intro g hg s hs
        rcases List.mem_cons.mp hs with hs | hs
        · subst hs
          exact Or.inr (hbounds g hg).1
        · exact hno g hg s hs
    · rw [if_neg hleq] at hgaps
      refine ⟨⟨L, left, L, r.range.startChar⟩ :: tail, hgaps, ?_, ?_, ?_, ?_⟩
      · intro c
        constructor
        · rintro (⟨g, hgm, hcg⟩ | ⟨s, hs, hcs⟩)
          · rcases List.mem_cons.mp hgm with hgm | hgm
            · subst hgm
              have hc1 : left ≤ c := hcg.1
              have hc2 : c < r.range.startChar := hcg.2
              omega
            · have := (hiff c).mp (Or.inl ⟨g, hgm, hcg⟩); omega
          · rcases List.mem_cons.mp hs with hs | hs
            · rw [hs] at hcs
              have hc1 : r.range.startChar ≤ c := hcs.1
              have hc2 : c < r.range.endChar := hcs.2
              omega
            · have := (hiff c).mp (Or.inr ⟨s, hs, hcs⟩); omega
        · intro hc
          by_cases hca : c < r.range.startChar
          · exact Or.inl ⟨_, List.mem_cons_self _ _, ⟨hc.1, hca⟩⟩
          · by_cases hcb : c < r.range.endChar
            · exact Or.inr ⟨r, by simp, ⟨by omega, hcb⟩⟩
            · rcases (hiff c).mpr ⟨by omega, hc.2⟩ with ⟨g, hgm, hcg⟩ | ⟨s, hs, hcs⟩
              · exact Or.inl ⟨g, List.mem_cons_of_mem _ hgm, hcg⟩
              · exact Or.inr ⟨s, List.mem_cons_of_mem _ hs, hcs⟩
      · intro g hg
        rcases List.mem_cons.mp hg with hgm | hgm
        · subst hgm
          refine ⟨Nat.le_refl _, ?_, ?_, rfl, rfl⟩
          · show left < r.range.startChar
            omega
          · show r.range.startChar ≤ right
            omega
        · have := hbounds g hgm
          exact ⟨by omega, this.2.1, this.2.2.1, this.2.2.2⟩
      · rw [List.pairwise_cons]
        refine ⟨fun g hgm => ?_, hpw⟩
        have := hbounds g hgm
        show r.range.startChar ≤ g.startChar
        omega
      · intro g hg s hs
        rcases List.mem_cons.mp hg with hgm | hgm
        · subst hgm
          rcases List.mem_cons.mp hs with hs | hs
          · subst hs
            exact Or.inl (Nat.le_refl _)
          · refine Or.inl ?_
            show r.range.startChar ≤ s.range.startChar
            have := hmem s hs
            omega
        · rcases List.mem_cons.mp hs with hs | hs
          · subst hs
            exact Or.inr (hbounds g hgm).1
          · exact hno g hgm s hs

/-! ## From the claim hypotheses to the chain condition -/

/-- A well-formed range contained in a line's range lies on that line, with
its characters within the line's text. -/
theorem contained_wf_facts {line : TextLine} {r : Rng}
    (hc : line.range.containsRng r = true) (hwf : r.wf) :
    r.startLine = line.lineNumber ∧ r.endLine = line.lineNumber ∧
    r.startChar ≤ r.endChar ∧ r.endChar ≤ line.text.length := by
  unfold Rng.containsRng Rng.containsPos Pos.isBefore TextLine.range
    Rng.startPos Rng.endPos at hc
  unfold Rng.wf Pos.isBeforeOrEqual Rng.startPos Rng.endPos at hwf
  simp only [Bool.and_eq_true, Bool.not_eq_true', Bool.or_eq_false_iff,
    decide_eq_false_iff_not, Bool.and_eq_false_iff, Bool.or_eq_true,
    decide_eq_true_eq, Bool.and_eq_true, not_lt, not_and, not_le] at hc hwf
  omega

/-- The relation `noOverlap` on token ranges is symmetric. -/
theorem noOverlap_tok_symm :
    ∀ {x y : TokenRange}, x.range.noOverlap y.range → y.range.noOverlap x.range :=
  fun h => h.symm

/-- A sorted, pairwise non-overlapping list of well-formed ranges with
pairwise distinct start characters satisfies the chain condition. -/
theorem chainOK_of_sorted :
    ∀ (rs : List TokenRange) (left len : Nat),
      (rs.Pairwise fun a b => startKey a ≤ startKey b) →
      (rs.Pairwise fun a b => a.range.noOverlap b.range) →
      (rs.Pairwise fun a b => startKey a ≠ startKey b) →
      (∀ r ∈ rs, r.range.startChar ≤ r.range.endChar) →
      (∀ r ∈ rs, r.range.endChar ≤ len) →
      (∀ r ∈ rs, left ≤ r.range.startChar) →
      left ≤ len →
      chainOK left len rs := by
  intro rs
  induction rs with
  | nil => intro left len _ _ _ _ _ _ h; exact h
  | cons r rest ih =>
    intro left len hsort hdisj hkey hwf hlen hleft hll
    have hsort' := List.pairwise_cons.mp hsort
    have hdisj' := List.pairwise_cons.mp hdisj
    have hkey' := List.pairwise_cons.mp hkey
    have hnext : ∀ s ∈ rest, r.range.endChar ≤ s.range.startChar := by
      intro s hs
      have h1 := hsort'.1 s hs
      have h3 := hkey'.1 s hs
      have h4 := hwf s (List.mem_cons_of_mem _ hs)
      rcases hdisj'.1 s hs with h2 | h2
      · exact h2
      · exfalso; unfold startKey at h1 h3; omega
    refine ⟨hleft r (by simp), ?_⟩
    exact ih r.range.endChar len hsort'.2 hdisj'.2 hkey'.2
      (fun s hs => hwf s (List.mem_cons_of_mem _ hs))
      (fun s hs => hlen s (List.mem_cons_of_mem _ hs))
      hnext (hlen r (by simp))

/-- Conversely, the chain condition forces pairwise non-overlap. -/
theorem chainOK_pairwise_noOverlap :
    ∀ {rs : List TokenRange} {left right : Nat}, chainOK left right rs →
      (∀ r ∈ rs, r.range.startChar ≤ r.range.endChar) →
      rs.Pairwise fun a b => a.range.noOverlap b.range := by
  intro rs
  induction rs with
  | nil => intro left right _ _; exact List.Pairwise.nil
  | cons r rest ih =>
    intro left right h hwf
    have hwfrest : ∀ s ∈ rest, s.range.startChar ≤ s.range.endChar :=
      fun s hs => hwf s (List.mem_cons_of_mem _ hs)
    rw [List.pairwise_cons]
    constructor
    · intro s hs
      exact Or.inl (chainOK_mem h.2 hwfrest s hs).1
    · exact ih h.2 hwfrest

/-- Combining a weak sort with distinct keys gives a strict sort. -/
theorem pairwise_strict_of_le_ne {l : List TokenRange}
    (h1 : l.Pairwise fun a b => startKey a ≤ startKey b)
    (h2 : l.Pairwise fun a b => startKey a ≠ startKey b) :
    l.Pairwise fun a b => startKey a < startKey b := by
  induction l with
  | nil => exact List.Pairwise.nil
  | cons x xs ih =>
    rw [List.pairwise_cons] at h1 h2 ⊢
    exact ⟨fun y hy => Nat.lt_of_le_of_ne (h1.1 y hy) (h2.1 y hy),
      ih h1.2 h2.2⟩

/-! ## Claims C1, C6, C7, C10 -/

/-- C1 (amended): for every line `L` and list `R` of pairwise
non-overlapping exclusion ranges contained in `L`'s range whose start
characters are pairwise distinct (automatic when every range has positive
width), `excludeLineRanges L R` succeeds; its result together with `R`
exactly reconstructs `L`'s range with no gaps and no overlaps (zero-width
segments being dropped), the result ranges are produced in left-to-right
order, overlap neither `R` nor each other, and the result is the same for
every supply order of `R`. -/
theorem excludeLineRanges_reconstructs (L : TextLine) (R : List TokenRange)
    (hwf : ∀ r ∈ R, r.range.wf)
    (hin : ∀ r ∈ R, L.range.containsRng r.range = true)
    (hdisj : R.Pairwise fun a b => a.range.noOverlap b.range)
    (hkey : R.Pairwise fun a b => startKey a ≠ startKey b) :
    ∃ out, excludeLineRanges L R = .ok out ∧
      (∀ c : Nat, ((∃ g ∈ out, g.memChar c) ∨ (∃ r ∈ R, r.range.memChar c)) ↔
        c < L.text.length) ∧
      (∀ g ∈ out, ∀ r ∈ R, g.noOverlap r.range) ∧
      out.Pairwise (fun g h => g.endChar ≤ h.startChar) ∧
      (∀ g ∈ out, g.startChar < g.endChar) ∧
      (∀ R', R.Perm R' → excludeLineRanges L R' = excludeLineRanges L R) := by
  have hallT : (R.all fun r => L.range.containsRng r.range) = true :=
    List.all_eq_true.mpr hin
  have hwfc : ∀ r ∈ R, r.range.startChar ≤ r.range.endChar :=
    fun r hr => (contained_wf_facts (hin r hr) (hwf r hr)).2.2.1
  have hlenc : ∀ r ∈ R, r.range.endChar ≤ L.text.length :=
    fun r hr => (contained_wf_facts (hin r hr) (hwf r hr)).2.2.2
  have hperm := sortByStart_perm R
  have hmemS : ∀ r ∈ sortByStart R, r ∈ R := fun r hr => hperm.mem_iff.mp hr
  have hwfS : ∀ r ∈ sortByStart R, r.range.startChar ≤ r.range.endChar :=
    fun r hr => hwfc r (hmemS r hr)
  have hlenS : ∀ r ∈ sortByStart R, r.range.endChar ≤ L.text.length :=
    fun r hr => hlenc r (hmemS r hr)
  have hdisjS : (sortByStart R).Pairwise fun a b => a.range.noOverlap b.range :=
    (hperm.pairwise_iff noOverlap_tok_symm).mpr hdisj
  have hkeyS : (sortByStart R).Pairwise fun a b => startKey a ≠ startKey b :=
    (hperm.pairwise_iff (fun h => Ne.symm h)).mpr hkey
  have hchain : chainOK 0 L.text.length (sortByStart R) :=
    chainOK_of_sorted _ 0 _ (sortByStart_sorted R) hdisjS hkeyS hwfS hlenS
      (fun r _ => Nat.zero_le _) (Nat.zero_le _)
  obtain ⟨out, hgs, hiff, hbounds, hpw, hno⟩ :=
    gaps_spec L.lineNumber (sortByStart R) 0 L.text.length hchain hwfS
  have hresult : excludeLineRanges L R = .ok out := by
    unfold excludeLineRanges
    rw [if_pos hallT, buildRanges_eq_gaps]
    show (match gaps L.lineNumber 0 L.text.length (sortByStart R) with
          | .error _ => Except.error ExcludeLineRangesErrorCode.RangeIntersection
          | .ok value => .ok value) = .ok out
    rw [hgs]
  refine ⟨out, hresult, ?_, ?_, hpw, ?_, ?_⟩
  · intro c
    have h := hiff c
    constructor
    · intro hc
      rcases hc with hg | ⟨r, hr, hcr⟩
      · have := h.mp (Or.inl hg); omega
      · have := h.mp (Or.inr ⟨r, hperm.mem_iff.mpr hr, hcr⟩); omega
    · intro hc
      rcases h.mpr ⟨Nat.zero_le _, hc⟩ with hg | ⟨r, hr, hcr⟩
      · exact Or.inl hg
      · exact Or.inr ⟨r, hmemS r hr, hcr⟩
  · intro g hg r hr
    exact hno g hg r (hperm.mem_iff.mpr hr)
  · intro g hg
    exact (hbounds g hg).2.1
  · intro R' hRR'
    have hall' : (R'.all fun r => L.range.containsRng r.range) = true :=
      List.all_eq_true.mpr fun r hr => hin r (hRR'.mem_iff.mpr hr)
    have hpermR' := sortByStart_perm R'
    have hstrictR : (sortByStart R).Pairwise fun a b => startKey a < startKey b :=
      pairwise_strict_of_le_ne (sortByStart_sorted R) hkeyS
    have hkeyR' : R'.Pairwise (fun a b => startKey a ≠ startKey b) :=
      (hRR'.pairwise_iff (fun h => Ne.symm h)).mp hkey
    have hkeyS' : (sortByStart R').Pairwise fun a b => startKey a ≠ startKey b :=
      (hpermR'.pairwise_iff (fun h => Ne.symm h)).mpr hkeyR'
    have hstrictR' : (sortByStart R').Pairwise fun a b => startKey a < startKey b :=
      pairwise_strict_of_le_ne (sortByStart_sorted R') hkeyS'
    have hSeq : sortByStart R' = sortByStart R :=
      sorted_strict_eq_of_perm (hpermR'.trans (hRR'.symm.trans hperm.symm))
        hstrictR' hstrictR
    unfold excludeLineRanges
    rw [if_pos hall', if_pos hallT, hSeq]

/-- C1 counterexample: two contained, well-formed, pairwise
non-overlapping exclusion ranges — one of them zero-width and sharing its
start character with the other — make `excludeLineRanges` fail with
`RangeIntersection` in one supply order while the opposite order succeeds,
refuting both the success and the order-independence parts of the claim
as stated. -/
theorem excludeLineRanges_order_dependent :
    (∀ r ∈ [(⟨['c', 'd', 'e'], ⟨0, 2, 0, 5⟩, true⟩ : TokenRange),
            ⟨[], ⟨0, 2, 0, 2⟩, true⟩], r.range.wf) ∧
    (∀ r ∈ [(⟨['c', 'd', 'e'], ⟨0, 2, 0, 5⟩, true⟩ : TokenRange),
            ⟨[], ⟨0, 2, 0, 2⟩, true⟩],
      (⟨0, ['a', 'b', 'c', 'd', 'e', 'f']⟩ : TextLine).range.containsRng r.range
        = true) ∧
    ([(⟨['c', 'd', 'e'], ⟨0, 2, 0, 5⟩, true⟩ : TokenRange),
      ⟨[], ⟨0, 2, 0, 2⟩, true⟩].Pairwise fun a b => a.range.noOverlap b.range) ∧
    excludeLineRanges ⟨0, ['a', 'b', 'c', 'd', 'e', 'f']⟩
      [⟨['c', 'd', 'e'], ⟨0, 2, 0, 5⟩, true⟩, ⟨[], ⟨0, 2, 0, 2⟩, true⟩] =
        .error .RangeIntersection ∧
    excludeLineRanges ⟨0, ['a', 'b', 'c', 'd', 'e', 'f']⟩
      [⟨[], ⟨0, 2, 0, 2⟩, true⟩, ⟨['c', 'd', 'e'], ⟨0, 2, 0, 5⟩, true⟩] =
        .ok [⟨0, 0, 0, 2⟩, ⟨0, 5, 0, 6⟩] := by
  refine ⟨by decide, by decide, by decide, by rfl, by rfl⟩

/-- C1 witness: the amended reconstruction theorem applied to a concrete
line and two out-of-order exclusion ranges. -/
theorem excludeLineRanges_reconstructs_witness :
    (∀ r ∈ [(⟨['e'], ⟨0, 4, 0, 5⟩, true⟩ : TokenRange),
            ⟨['b'], ⟨0, 1, 0, 2⟩, true⟩], r.range.wf) ∧
    (∃ out, excludeLineRanges ⟨0, ['a', 'b', 'c', 'd', 'e', 'f']⟩
        [⟨['e'], ⟨0, 4, 0, 5⟩, true⟩, ⟨['b'], ⟨0, 1, 0, 2⟩, true⟩] = .ok out ∧
      (∀ c : Nat, ((∃ g ∈ out, g.memChar c) ∨
        (∃ r ∈ [(⟨['e'], ⟨0, 4, 0, 5⟩, true⟩ : TokenRange),
                ⟨['b'], ⟨0, 1, 0, 2⟩, true⟩], r.range.memChar c)) ↔ c < 6) ∧
      (∀ g ∈ out, ∀ r ∈ [(⟨['e'], ⟨0, 4, 0, 5⟩, true⟩ : TokenRange),
        ⟨['b'], ⟨0, 1, 0, 2⟩, true⟩], g.noOverlap r.range) ∧
      out.Pairwise (fun g h => g.endChar ≤ h.startChar) ∧
      (∀ g ∈ out, g.startChar < g.endChar) ∧
      (∀ R', List.Perm [(⟨['e'], ⟨0, 4, 0, 5⟩, true⟩ : TokenRange),
          ⟨['b'], ⟨0, 1, 0, 2⟩, true⟩] R' →
        excludeLineRanges ⟨0, ['a', 'b', 'c', 'd', 'e', 'f']⟩ R' =
          excludeLineRanges ⟨0, ['a', 'b', 'c', 'd', 'e', 'f']⟩
            [⟨['e'], ⟨0, 4, 0, 5⟩, true⟩, ⟨['b'], ⟨0, 1, 0, 2⟩, true⟩])) :=
  ⟨by decide,
    excludeLineRanges_reconstructs ⟨0, ['a', 'b', 'c', 'd', 'e', 'f']⟩
      [⟨['e'], ⟨0, 4, 0, 5⟩, true⟩, ⟨['b'], ⟨0, 1, 0, 2⟩, true⟩]
      (by decide) (by decide) (by decide) (by decide)⟩

/-- C6 (amended): for every line with nonempty text, excluding the empty
set of ranges returns exactly the one-element list `[L.range]`.  (For a
line with empty text the whole-line segment is zero-width, hence dropped,
and the result is `[]` — see the counterexample.) -/
theorem excludeLineRanges_no_exclusions (L : TextLine) (h : L.text ≠ []) :
    excludeLineRanges L [] = .ok [L.range] := by
  have hlen : L.text.length ≠ 0 := fun hh => h (List.eq_nil_of_length_eq_zero hh)
  unfold excludeLineRanges
  rw [if_pos (by simp)]
  show (match buildRanges L.lineNumber [0, L.text.length] with
        | .error _ => Except.error ExcludeLineRangesErrorCode.RangeIntersection
        | .ok value => .ok value) = _
  unfold buildRanges
  rw [if_neg (by omega)]
  show Except.ok (if 0 = L.text.length then ([] : List Rng)
      else [⟨L.lineNumber, 0, L.lineNumber, L.text.length⟩]) = _
  rw [if_neg (by omega)]
  rfl

/-- C6 counterexample: on a line with empty text the zero-width whole-line
segment is dropped, so the result is `[]`, not `[L.range]`. -/
theorem excludeLineRanges_no_exclusions_empty_line :
    excludeLineRanges ⟨0, []⟩ [] = .ok [] ∧
      (Except.ok ([] : List Rng) :
        Except ExcludeLineRangesErrorCode (List Rng)) ≠
        .ok [(⟨0, []⟩ : TextLine).range] := by
  constructor
  · rfl
  · intro hcontra
    have : ([] : List Rng) = [(⟨0, []⟩ : TextLine).range] :=
      Except.ok.inj hcontra
    cases this

/-- C6 witness: the amended claim applied to a concrete nonempty line. -/
theorem excludeLineRanges_no_exclusions_witness :
    excludeLineRanges ⟨3, ['x', 'y']⟩ [] =
      .ok [(⟨3, ['x', 'y']⟩ : TextLine).range] :=
  excludeLineRanges_no_exclusions ⟨3, ['x', 'y']⟩ (by decide)

/-- C7: `excludeLineRanges` fails with `RangeBeyondLine` whenever some
excluded range is not contained in the line's range; and when all excluded
ranges are contained (and well formed, as every VS Code range is), it
fails with `RangeIntersection` whenever two excluded ranges overlap — so
in every such case it returns one of these errors, never a success. -/
theorem excludeLineRanges_error_conditions (L : TextLine) (R : List TokenRange) :
    ((∃ r ∈ R, ¬ L.range.containsRng r.range = true) →
      excludeLineRanges L R = .error .RangeBeyondLine) ∧
    ((∀ r ∈ R, L.range.containsRng r.range = true) →
      (∀ r ∈ R, r.range.wf) →
      ¬ (R.Pairwise fun a b => a.range.noOverlap b.range) →
      excludeLineRanges L R = .error .RangeIntersection) := by
  constructor
  · rintro ⟨r, hr, hnc⟩
    unfold excludeLineRanges
    rw [if_neg]
    intro hall
    exact hnc (List.all_eq_true.mp hall r hr)
  · intro hin hwf hnd
    have hallT : (R.all fun r => L.range.containsRng r.range) = true :=
      List.all_eq_true.mpr hin
    have hperm := sortByStart_perm R
    have hwfS : ∀ r ∈ sortByStart R, r.range.startChar ≤ r.range.endChar :=
      fun r hr =>
        (contained_wf_facts (hin r (hperm.mem_iff.mp hr))
          (hwf r (hperm.mem_iff.mp hr))).2.2.1
    unfold excludeLineRanges
    rw [if_pos hallT, buildRanges_eq_gaps]
    cases hg : gaps L.lineNumber L.range.startChar L.range.endChar
        (sortByStart R) with
    | error e => rfl
    | ok out =>
      exfalso
      have hchain := chainOK_of_gaps_ok L.lineNumber hg
      have hpwS := chainOK_pairwise_noOverlap hchain hwfS
      exact hnd ((hperm.pairwise_iff noOverlap_tok_symm).mp hpwS)

/-- C7 witness: both error conditions exercised on a concrete line — a
range reaching beyond the line, and two overlapping contained ranges. -/
theorem excludeLineRanges_error_conditions_witness :
    excludeLineRanges ⟨0, ['a', 'b', 'c', 'd', 'e', 'f']⟩
      [⟨[], ⟨0, 1, 0, 9⟩, true⟩] = .error .RangeBeyondLine ∧
    excludeLineRanges ⟨0, ['a', 'b', 'c', 'd', 'e', 'f']⟩
      [⟨[], ⟨0, 1, 0, 3⟩, true⟩, ⟨[], ⟨0, 2, 0, 5⟩, true⟩] =
        .error .RangeIntersection :=
  ⟨(excludeLineRanges_error_conditions ⟨0, ['a', 'b', 'c', 'd', 'e', 'f']⟩
      [⟨[], ⟨0, 1, 0, 9⟩, true⟩]).1
      ⟨⟨[], ⟨0, 1, 0, 9⟩, true⟩, by decide, by decide⟩,
    (excludeLineRanges_error_conditions ⟨0, ['a', 'b', 'c', 'd', 'e', 'f']⟩
      [⟨[], ⟨0, 1, 0, 3⟩, true⟩, ⟨[], ⟨0, 2, 0, 5⟩, true⟩]).2
      (by decide) (by decide) (by decide)⟩

/-- C10: whenever every excluded range is contained in the line, the
caller's array is replaced (in place, modelled by
`excludeLineRangesPost`) by its stable ascending sort on range start
character — a permutation of the original elements, sorted, with
equal-key elements kept in supply order — before any result or
`RangeIntersection` error is produced; when the containment check fails,
the array is left untouched. -/
theorem excludeLineRangesPost_spec (L : TextLine) (R : List TokenRange) :
    ((R.all fun r => L.range.containsRng r.range) = true →
      excludeLineRangesPost L R = sortByStart R ∧
      (sortByStart R).Perm R ∧
      ((sortByStart R).Pairwise fun a b => startKey a ≤ startKey b) ∧
      (∀ k, (sortByStart R).filter (fun r => startKey r == k) =
        R.filter (fun r => startKey r == k))) ∧
    ((R.all fun r => L.range.containsRng r.range) = false →
      excludeLineRangesPost L R = R) := by
  constructor
  · intro h
    refine ⟨?_, sortByStart_perm R, sortByStart_sorted R,
      fun k => sortByStart_filter R k⟩
    unfold excludeLineRangesPost
    rw [if_pos h]
  · intro h
    unfold excludeLineRangesPost
    rw [if_neg]
    intro hcontra
    rw [h] at hcontra
    cases hcontra

/-- C10 witness: the mutation model applied to a concrete call, in both
the contained and the not-contained case. -/
theorem excludeLineRangesPost_spec_witness :
    ((([⟨[], ⟨0, 4, 0, 5⟩, true⟩, ⟨[], ⟨0, 1, 0, 2⟩, true⟩] :
        List TokenRange).all fun r =>
          (⟨0, ['a', 'b', 'c', 'd', 'e', 'f']⟩ : TextLine).range.containsRng
            r.range) = true ∧
      excludeLineRangesPost ⟨0, ['a', 'b', 'c', 'd', 'e', 'f']⟩
        [⟨[], ⟨0, 4, 0, 5⟩, true⟩, ⟨[], ⟨0, 1, 0, 2⟩, true⟩] =
        sortByStart [⟨[], ⟨0, 4, 0, 5⟩, true⟩, ⟨[], ⟨0, 1, 0, 2⟩, true⟩]) ∧
    ((([⟨[], ⟨0, 4, 0, 9⟩, true⟩] : List TokenRange).all fun r =>
        (⟨0, ['a', 'b', 'c', 'd', 'e', 'f']⟩ : TextLine).range.containsRng
          r.range) = false ∧
      excludeLineRangesPost ⟨0, ['a', 'b', 'c', 'd', 'e', 'f']⟩
        [⟨[], ⟨0, 4, 0, 9⟩, true⟩] = [⟨[], ⟨0, 4, 0, 9⟩, true⟩]) :=
  ⟨⟨by decide,
      ((excludeLineRangesPost_spec ⟨0, ['a', 'b', 'c', 'd', 'e', 'f']⟩
        [⟨[], ⟨0, 4, 0, 5⟩, true⟩, ⟨[], ⟨0, 1, 0, 2⟩, true⟩]).1 (by decide)).1⟩,
    ⟨by decide,
      (excludeLineRangesPost_spec ⟨0, ['a', 'b', 'c', 'd', 'e', 'f']⟩
        [⟨[], ⟨0, 4, 0, 9⟩, true⟩]).2 (by decide)⟩⟩

/-! ## Line Match Search (`matchRanges`, source lines 776-806) -/

/-- Model of a compiled ECMAScript global `RegExp`.  `exec t i` returns the
next match of the pattern in text `t` searching from index `i` (as the
match index and match length), or `none` when there is no further match.
The two fields besides `exec` are the facts ECMAScript guarantees for any
regex: a match found from `lastIndex = i` begins at or after `i`, and the
matched substring lies within the text. -/
structure RegexMatcher where
  exec : List Char → Nat → Option (Nat × Nat)
  exec_ge : ∀ t i j n, exec t i = some (j, n) → i ≤ j
  exec_inside : ∀ t i j n, exec t i = some (j, n) → j + n ≤ t.length

/-- One step bound of the `matchAll` iteration: after a match `(j, n)` the
scan resumes at `j + n`, or at `j + 1` for an empty match
(ECMAScript `AdvanceStringIndex`). -/
def nextScanPos (j n : Nat) : Nat := if n = 0 then j + 1 else j + n

/-- The `String.prototype.matchAll` iteration for a global regex, with
explicit fuel (the scan position strictly increases and is bounded by the
text length, so `t.length + 1` steps always suffice). -/
def matchAllAux (m : RegexMatcher) (t : List Char) : Nat → Nat → List (Nat × Nat)
  | 0, _ => []
  | fuel + 1, pos =>
    match m.exec t pos with
    | none => []
    | some (j, n) => (j, n) :: matchAllAux m t fuel (nextScanPos j n)

/-- `String.prototype.matchAll` of a global regex whose `lastIndex` is
`pos`, as used by `matchRanges`. -/
def jsMatchAll (m : RegexMatcher) (t : List Char) (pos : Nat) : List (Nat × Nat) :=
  matchAllAux m t (t.length + 1) pos

/-- `matchRanges` (source lines 776-806): search the text slice
`line.text.slice(0, seekRange.end.character)` from
`max(seekRange.start.character, lastIndex)`.  The loop body is
`if (limit && matches.push({ fullMatch, range }) >= limit) break`:
the push happens only inside the short-circuiting `&&`, so when `limit`
is 0 (falsy — negative limits are coerced to 0 beforehand) no match is
ever pushed and the function returns the empty array; with a positive
`limit` it pushes until `limit` matches were collected, i.e. returns the
first `limit` matches. -/
def matchRanges (line : TextLine) (seekRange : Rng) (m : RegexMatcher)
    (lastIndex : Nat) (limit : Nat) : List MatchRange :=
  if limit = 0 then []
  else ((jsMatchAll m (line.text.take seekRange.endChar)
      (max seekRange.startChar lastIndex)).take limit).map
    fun p =>
      { fullMatch := ((line.text.take seekRange.endChar).drop p.1).take p.2,
        range := ⟨line.lineNumber, p.1, line.lineNumber, p.1 + p.2⟩ }

theorem matchAllAux_ge (m : RegexMatcher) (t : List Char) :
    ∀ (fuel pos : Nat), ∀ p ∈ matchAllAux m t fuel pos, pos ≤ p.1 := by
  intro fuel
  induction fuel with
  | zero => intro pos p hp; cases hp
  | succ fuel ih =>
    intro pos p hp
    unfold matchAllAux at hp
    cases hex : m.exec t pos with
    | none => rw [hex] at hp; cases hp
    | some q =>
      rw [hex] at hp
      obtain ⟨j, n⟩ := q
      rcases List.mem_cons.mp hp with hp | hp
      · subst hp; exact m.exec_ge t pos j n hex
      · have h1 : pos ≤ j := m.exec_ge t pos j n hex
        have h2 := ih (nextScanPos j n) p hp
        unfold nextScanPos at h2
        by_cases hn : n = 0
        · rw [if_pos hn] at h2; omega
        · rw [if_neg hn] at h2; omega

theorem matchAllAux_inside (m : RegexMatcher) (t : List Char) :
    ∀ (fuel pos : Nat), ∀ p ∈ matchAllAux m t fuel pos, p.1 + p.2 ≤ t.length := by
  intro fuel
  induction fuel with
  | zero => intro pos p hp; cases hp
  | succ fuel ih =>
    intro pos p hp
    unfold matchAllAux at hp
    cases hex : m.exec t pos with
    | none => rw [hex] at hp; cases hp
    | some q =>
      rw [hex] at hp
      obtain ⟨j, n⟩ := q
      rcases List.mem_cons.mp hp with hp | hp
      · subst hp; exact m.exec_inside t pos j n hex
      · exact ih (nextScanPos j n) p hp

/-- Successive `matchAll` results are strictly left-to-right and do not
overlap each other. -/
theorem matchAllAux_ordered (m : RegexMatcher) (t : List Char) :
    ∀ (fuel pos : Nat), (matchAllAux m t fuel pos).Pairwise
      fun p q => p.1 < q.1 ∧ p.1 + p.2 ≤ q.1 := by
  intro fuel
  induction fuel with
  | zero => intro pos; exact List.Pairwise.nil
  | succ fuel ih =>
    intro pos
    unfold matchAllAux
    cases hex : m.exec t pos with
    | none => exact List.Pairwise.nil
    | some q =>
      obtain ⟨j, n⟩ := q
      rw [List.pairwise_cons]
      refine ⟨fun p hp => ?_, ih (nextScanPos j n)⟩
      have h2 := matchAllAux_ge m t fuel (nextScanPos j n) p hp
      unfold nextScanPos at h2
      by_cases hn : n = 0
      · rw [if_pos hn] at h2
        constructor
        · omega
        · omega
      · rw [if_neg hn] at h2
        constructor
        · omega
        · omega

/-- C8 (amended): for every line, seek range, pattern (any matcher with
the ECMAScript guarantees), starting offset and non-negative limit:
with `limit = 0` the function returns **no** matches (the push inside
the loop condition is short-circuited by the falsy limit); with a
positive limit it returns at most `limit` matches — exactly the first
`limit` of the matches any larger limit would return — every returned
match lies within the window
`[max(seekRange.start, lastIndex), seekRange.end)`, and matches come in
strictly left-to-right order of their start positions. -/
theorem matchRanges_spec (line : TextLine) (seekRange : Rng) (m : RegexMatcher)
    (lastIndex limit : Nat) :
    matchRanges line seekRange m lastIndex 0 = [] ∧
    (0 < limit → (matchRanges line seekRange m lastIndex limit).length ≤ limit) ∧
    (∀ bigger : Nat, 0 < limit → limit ≤ bigger →
      matchRanges line seekRange m lastIndex limit =
        (matchRanges line seekRange m lastIndex bigger).take limit) ∧
    (∀ mr ∈ matchRanges line seekRange m lastIndex limit,
      max seekRange.startChar lastIndex ≤ mr.range.startChar ∧
      mr.range.startChar ≤ mr.range.endChar ∧
      mr.range.endChar ≤ seekRange.endChar) ∧
    (matchRanges line seekRange m lastIndex limit).Pairwise
      fun a b => a.range.startChar < b.range.startChar := by
  refine ⟨?_, ?_, ?_, ?_, ?_⟩
  · unfold matchRanges
    rw [if_pos rfl]
  · intro hl
    unfold matchRanges
    rw [if_neg (by omega), List.length_map, List.length_take]
    omega
  · intro bigger hl hle
    unfold matchRanges
    rw [if_neg (by omega), if_neg (by omega), ← List.map_take,
      List.take_take, Nat.min_eq_left hle]
  · intro mr hmr
    unfold matchRanges at hmr
    by_cases h0 : limit = 0
    · rw [if_pos h0] at hmr
      cases hmr
    · rw [if_neg h0] at hmr
      rw [List.mem_map] at hmr
      obtain ⟨p, hp, rfl⟩ := hmr
      have hpmem : p ∈ jsMatchAll m (line.text.take seekRange.endChar)
          (max seekRange.startChar lastIndex) := List.mem_of_mem_take hp
      have h1 := matchAllAux_ge m (line.text.take seekRange.endChar) _ _ p hpmem
      have h2 := matchAllAux_inside m (line.text.take seekRange.endChar) _ _ p
        hpmem
      have h3 : (line.text.take seekRange.endChar).length ≤
          seekRange.endChar := by
        rw [List.length_take]; omega
      refine ⟨h1, ?_, ?_⟩
      · show p.1 ≤ p.1 + p.2
        omega
      · show p.1 + p.2 ≤ seekRange.endChar
        omega
  · unfold matchRanges
    by_cases h0 : limit = 0
    · rw [if_pos h0]
      exact List.Pairwise.nil
    · rw [if_neg h0]
      rw [List.pairwise_map]
      have hord := matchAllAux_ordered m (line.text.take seekRange.endChar)
        ((line.text.take seekRange.endChar).length + 1)
        (max seekRange.startChar lastIndex)
      exact (hord.sublist (List.take_sublist _ _)).imp fun h => h.1

/-! ## Concrete matchers for the patterns the engine compiles -/

/-- Index of the first tail of the list satisfying `p` (leftmost regex
match position: JS regexes try each position left to right). -/
def findPos (p : List Char → Bool) : List Char → Option Nat
  | [] => none
  | c :: cs => if p (c :: cs) then some 0 else (findPos p cs).map (· + 1)

/-- Wraps a raw search function into a `RegexMatcher`, enforcing the
ECMAScript envelope (a reported match starts at or after the query index
and lies inside the text).  For the concrete search functions defined
below the enforcement never fires; it only discharges the structure's
proof obligations uniformly. -/
def mkSafeMatcher (f : List Char → Nat → Option (Nat × Nat)) : RegexMatcher where
  exec t i :=
    match f t i with
    | some p => if i ≤ p.1 ∧ p.1 + p.2 ≤ t.length then some p else none
    | none => none
  exec_ge := by
    intro t i j n h
    cases hf : f t i with
    | none => simp only [hf] at h; cases h
    | some p =>
      simp only [hf] at h
      by_cases hc : i ≤ p.1 ∧ p.1 + p.2 ≤ t.length
      · rw [if_pos hc] at h
        have hp : p = (j, n) := Option.some.inj h
        subst hp
        exact hc.1
      · rw [if_neg hc] at h
        cases h
  exec_inside := by
    intro t i j n h
    cases hf : f t i with
    | none => simp only [hf] at h; cases h
    | some p =>
      simp only [hf] at h
      by_cases hc : i ≤ p.1 ∧ p.1 + p.2 ≤ t.length
      · rw [if_pos hc] at h
        have hp : p = (j, n) := Option.some.inj h
        subst hp
        exact hc.2
      · rw [if_neg hc] at h
        cases h

/-- Raw search for a literal pattern (a keyword regex such as `enum`,
`message`, `required`: it matches the keyword as a substring anywhere,
leftmost first). -/
def literalRawExec (pat : List Char) (t : List Char) (i : Nat) :
    Option (Nat × Nat) :=
  (findPos (pat.isPrefixOf ·) (t.drop i)).map fun k => (i + k, pat.length)

/-- A keyword regex such as `new RegExp('enum', 'g')`. -/
def literalMatcher (pat : List Char) : RegexMatcher :=
  mkSafeMatcher (literalRawExec pat)

/-- Character class `[a-zA-Z_]` (start of `IDENTIFIER`). -/
def isIdentStart (c : Char) : Bool :=
  ('a' ≤ c && c ≤ 'z') || ('A' ≤ c && c ≤ 'Z') || c = '_'

/-- Character class `\w`, i.e. `[A-Za-z0-9_]`. -/
def isWordChar (c : Char) : Bool :=
  isIdentStart c || ('0' ≤ c && c ≤ '9')

/-- Raw search for `IDENTIFIER` = `[a-zA-Z_]\w*`: leftmost position with
an identifier start character, then the maximal run of word characters. -/
def identRawExec (t : List Char) (i : Nat) : Option (Nat × Nat) :=
  (findPos (fun l => match l with | c :: _ => isIdentStart c | [] => false)
      (t.drop i)).map
    fun k => (i + k, ((t.drop (i + k)).takeWhile isWordChar).length)

/-- The `IDENTIFIER` regex. -/
def identMatcher : RegexMatcher := mkSafeMatcher identRawExec

/-- Length consumed by the greedy `(?:\.[a-zA-Z_]\w*)*` continuation of
`FIELD_TYPE`/`QUALIFIED_IDENTIFIER`, with fuel. -/
def dotIdentRunsLen (fuel : Nat) (l : List Char) : Nat :=
  match fuel, l with
  | fuel + 1, '.' :: c :: rest =>
    if isIdentStart c then
      let run := 1 + ((c :: rest).takeWhile isWordChar).length
      run + dotIdentRunsLen fuel (('.' :: c :: rest).drop (1 + run))
    else 0
  | _, _ => 0

/-- Raw search for `FIELD_TYPE` = `\.?[a-zA-Z_]\w*(?:\.[a-zA-Z_]\w*)*`:
leftmost position at which either an identifier starts, or a dot is
immediately followed by an identifier start; greedy match from there. -/
def fieldTypeRawExec (t : List Char) (i : Nat) : Option (Nat × Nat) :=
  (findPos (fun l =>
      match l with
      | '.' :: c :: _ => isIdentStart c
      | c :: _ => isIdentStart c
      | [] => false) (t.drop i)).map
    fun k =>
      let rest := t.drop (i + k)
      let dot : Nat := match rest with
        | '.' :: _ => 1
        | _ => 0
      let run := ((rest.drop dot).takeWhile isWordChar).length
      (i + k, dot + run + dotIdentRunsLen t.length (rest.drop (dot + run)))

/-- The `FIELD_TYPE` regex. -/
def fieldTypeMatcher : RegexMatcher := mkSafeMatcher fieldTypeRawExec

/-- C8 counterexample: with limit 0, matchRanges collects nothing — the
push sits inside the short-circuiting loop condition — although a match
lies in the search window (limit 1 finds it); this refutes the claim's
"all matches when limit = 0". -/
theorem matchRanges_limit_zero_counterexample :
    matchRanges ⟨0, ['a', 'b', 'c', 'a', 'b']⟩ ⟨0, 0, 0, 5⟩
        (literalMatcher ['a', 'b']) 0 0 = [] ∧
    matchRanges ⟨0, ['a', 'b', 'c', 'a', 'b']⟩ ⟨0, 0, 0, 5⟩
        (literalMatcher ['a', 'b']) 0 1 =
      [⟨['a', 'b'], ⟨0, 0, 0, 2⟩⟩] :=
  ⟨rfl, rfl⟩

/-- C8 witness: the empty result at limit 0 and the first-limit-matches
cut-off applied to a concrete line searched with a concrete keyword
matcher. -/
theorem matchRanges_spec_witness :
    matchRanges ⟨0, ['a', 'b', 'c', 'a', 'b']⟩ ⟨0, 0, 0, 5⟩
        (literalMatcher ['a', 'b']) 0 0 = [] ∧
    (0 < 1 ∧ (1 : Nat) ≤ 2 ∧
      matchRanges ⟨0, ['a', 'b', 'c', 'a', 'b']⟩ ⟨0, 0, 0, 5⟩
          (literalMatcher ['a', 'b']) 0 1 =
        (matchRanges ⟨0, ['a', 'b', 'c', 'a', 'b']⟩ ⟨0, 0, 0, 5⟩
          (literalMatcher ['a', 'b']) 0 2).take 1) :=
  ⟨(matchRanges_spec ⟨0, ['a', 'b', 'c', 'a', 'b']⟩ ⟨0, 0, 0, 5⟩
      (literalMatcher ['a', 'b']) 0 1).1,
    ⟨Nat.zero_lt_one, by omega,
      (matchRanges_spec ⟨0, ['a', 'b', 'c', 'a', 'b']⟩ ⟨0, 0, 0, 5⟩
        (literalMatcher ['a', 'b']) 0 1).2.2.1 2 Nat.zero_lt_one (by omega)⟩⟩

/-! ## Comment Scanner (`TokenMap._lineComments`, source lines 428-516) -/

/-- Text of a single-line range `[a, b)` of a line, as
`TextDocument.getText` returns it for such a range. -/
def sliceText (t : List Char) (a b : Nat) : List Char := (t.take b).drop a

/-- Matches of the `COMMENT_OPEN` regex `\/\/|\/\*` at the head of a tail:
a `//` or `/*` here. -/
def isOpenAt : List Char → Bool
  | a :: b :: _ => a = '/' && (b = '/' || b = '*')
  | _ => false

/-- Matches of the `COMMENT_CLOSE` regex `\*\/` at the head of a tail. -/
def isCloseAt : List Char → Bool
  | a :: b :: _ => a = '*' && b = '/'
  | _ => false

/-- Index of the next `//` or `/*` at or after `i` (the `openPattern.exec`
with `lastIndex = i`). -/
def findCommentOpen (t : List Char) (i : Nat) : Option Nat :=
  (findPos isOpenAt (t.drop i)).map (· + i)

/-- Index of the next `*/` at or after `i` (the `closePattern.exec` with
`lastIndex = i`). -/
def findCommentClose (t : List Char) (i : Nat) : Option Nat :=
  (findPos isCloseAt (t.drop i)).map (· + i)

/-- The `do`/`while` state machine of `_lineComments`, with explicit fuel
(each iteration that continues advances the scan index by at least two,
so `text.length + 1` steps always suffice; the fuel-exhaustion branch is
unreachable under the wrapper's fuel).  State: the scan index
(`lastIndex`), whether we are outside a multi-line comment
(`commentClosed`), and the offset at which the pending comment opened
(`commentOpenIndex`). -/
def lineCommentsAux (ln : Nat) (text : List Char) :
    Nat → Nat → Bool → Nat → Except LookupErrorCode (List TokenRange)
  | 0, _, _, _ => .error .UnexpectedCommentOpen
  | fuel + 1, lastIndex, true, _ =>
    match findCommentOpen text lastIndex with
    | none => .ok []
    | some p =>
      if text[p + 1]? = some '/' then
        .ok [⟨sliceText text p text.length, ⟨ln, p, ln, text.length⟩, true⟩]
      else if text[p + 1]? = some '*' then
        lineCommentsAux ln text fuel (p + 2) false p
      else .error .UnexpectedCommentOpen
  | fuel + 1, lastIndex, false, commentOpenIndex =>
    match findCommentClose text lastIndex with
    | none =>
      .ok [⟨sliceText text commentOpenIndex text.length,
        ⟨ln, commentOpenIndex, ln, text.length⟩, false⟩]
    | some q =>
      match lineCommentsAux ln text fuel (q + 2) true commentOpenIndex with
      | .error e => .error e
      | .ok rest =>
        .ok (⟨sliceText text commentOpenIndex (q + 2),
          ⟨ln, commentOpenIndex, ln, q + 2⟩, true⟩ :: rest)

/-- `_lineComments` on the line `⟨ln, text⟩` starting at index `i` in
state `commentClosed`; `commentOpenIndex` starts at 0 (which clamps the
reported start of a comment opened on an earlier line to column 0). -/
def lineComments (ln : Nat) (text : List Char) (i : Nat) (commentClosed : Bool) :
    Except LookupErrorCode (List TokenRange) :=
  lineCommentsAux ln text (text.length + 1) i commentClosed 0

/-- The carried state computation of `_parseCurrentLineComments`:
`comments.at(-1)?.closed ?? commentClosed`. -/
def carriedClosed (ranges : List TokenRange) (commentClosed : Bool) : Bool :=
  match ranges.getLast? with
  | some tr => tr.closed
  | none => commentClosed

theorem findPos_some {p : List Char → Bool} :
    ∀ {l : List Char} {k : Nat}, findPos p l = some k →
      k < l.length ∧ p (l.drop k) = true := by
  intro l
  induction l with
  | nil => intro k h; cases h
  | cons c cs ih =>
    intro k h
    unfold findPos at h
    by_cases hp : p (c :: cs) = true
    · rw [if_pos hp] at h
      have : 0 = k := Option.some.inj h
      subst this
      exact ⟨Nat.succ_pos _, hp⟩
    · rw [if_neg hp] at h
      cases hf : findPos p cs with
      | none => rw [hf] at h; cases h
      | some k' =>
        rw [hf] at h
        have : k' + 1 = k := Option.some.inj h
        subst this
        have := ih hf
        rw [List.length_cons]
        exact ⟨by omega, this.2⟩

theorem isOpenAt_length {l : List Char} (h : isOpenAt l = true) : 2 ≤ l.length := by
  cases l with
  | nil => simp [isOpenAt] at h
  | cons a l2 =>
    cases l2 with
    | nil => simp [isOpenAt] at h
    | cons b l3 => simp

theorem isCloseAt_length {l : List Char} (h : isCloseAt l = true) : 2 ≤ l.length := by
  cases l with
  | nil => simp [isCloseAt] at h
  | cons a l2 =>
    cases l2 with
    | nil => simp [isCloseAt] at h
    | cons b l3 => simp

theorem findCommentOpen_facts {t : List Char} {i p : Nat}
    (h : findCommentOpen t i = some p) : i ≤ p ∧ p + 2 ≤ t.length := by
  unfold findCommentOpen at h
  cases hf : findPos isOpenAt (t.drop i) with
  | none => rw [hf] at h; cases h
  | some k =>
    rw [hf] at h
    have hk : k + i = p := Option.some.inj h
    obtain ⟨h1, h2⟩ := findPos_some hf
    rw [List.drop_drop] at h2
    have h3 := isOpenAt_length h2
    rw [List.length_drop] at h3
    have h4 : k < t.length - i := by
      have := List.length_drop i t
      omega
    omega

theorem findCommentClose_facts {t : List Char} {i p : Nat}
    (h : findCommentClose t i = some p) : i ≤ p ∧ p + 2 ≤ t.length := by
  unfold findCommentClose at h
  cases hf : findPos isCloseAt (t.drop i) with
  | none => rw [hf] at h; cases h
  | some k =>
    rw [hf] at h
    have hk : k + i = p := Option.some.inj h
    obtain ⟨h1, h2⟩ := findPos_some hf
    rw [List.drop_drop] at h2
    have h3 := isCloseAt_length h2
    rw [List.length_drop] at h3
    have h4 : k < t.length - i := by
      have := List.length_drop i t
      omega
    omega

theorem lineCommentsAux_closed_none {ln : Nat} {t : List Char}
    {fuel i co : Nat} (hf : 0 < fuel) (h : findCommentOpen t i = none) :
    lineCommentsAux ln t fuel i true co = .ok [] := by
  obtain ⟨f, rfl⟩ : ∃ f, fuel = f + 1 := ⟨fuel - 1, by omega⟩
  unfold lineCommentsAux
  rw [h]

theorem lineCommentsAux_closed_lineComment {ln : Nat} {t : List Char}
    {fuel i co p : Nat} (hf : 0 < fuel) (h : findCommentOpen t i = some p)
    (hc : t[p + 1]? = some '/') :
    lineCommentsAux ln t fuel i true co =
      .ok [⟨sliceText t p t.length, ⟨ln, p, ln, t.length⟩, true⟩] := by
  obtain ⟨f, rfl⟩ : ∃ f, fuel = f + 1 := ⟨fuel - 1, by omega⟩
  unfold lineCommentsAux
  rw [h]
  show (if t[p + 1]? = some '/' then _ else _) = _
  rw [if_pos hc]

theorem lineCommentsAux_closed_blockOpen {ln : Nat} {t : List Char}
    {fuel i p : Nat} {co : Nat} (h : findCommentOpen t i = some p)
    (hc : t[p + 1]? = some '*') :
    lineCommentsAux ln t (fuel + 1) i true co =
      lineCommentsAux ln t fuel (p + 2) false p := by
  conv_lhs => unfold lineCommentsAux
  rw [h]
  show (if t[p + 1]? = some '/' then _ else _) = _
  rw [if_neg (by rw [hc]; decide), if_pos hc]

theorem lineCommentsAux_open_none {ln : Nat} {t : List Char}
    {fuel i co : Nat} (hf : 0 < fuel) (h : findCommentClose t i = none) :
    lineCommentsAux ln t fuel i false co =
      .ok [⟨sliceText t co t.length, ⟨ln, co, ln, t.length⟩, false⟩] := by
  obtain ⟨f, rfl⟩ : ∃ f, fuel = f + 1 := ⟨fuel - 1, by omega⟩
  unfold lineCommentsAux
  rw [h]

theorem lineCommentsAux_open_close {ln : Nat} {t : List Char}
    {fuel i co q : Nat} {rest : List TokenRange}
    (h : findCommentClose t i = some q)
    (hrest : lineCommentsAux ln t fuel (q + 2) true co = .ok rest) :
    lineCommentsAux ln t (fuel + 1) i false co =
      .ok (⟨sliceText t co (q + 2), ⟨ln, co, ln, q + 2⟩, true⟩ :: rest) := by
  unfold lineCommentsAux
  simp only [h, hrest]

/-- C2: per-line behaviour of the comment scanner.  In Closed state a `//`
occurrence emits exactly one closed Comment range from that offset to
line end and scanning of the line stops.  In Open state with no `*/`, one
open (`closed := false`) range is emitted from the opening offset
(clamped to 0 for a comment opened on an earlier line) to line end and
the Open state is carried to the next line.  In Open state with `*/`
found, one closed range ending just past the closer is emitted, the state
returns to Closed and the rest of the line is scanned normally.  In
particular a `/*` on line N closed by `*/` on line N+1 yields comment
ranges on both lines, and text after the closer on line N+1 is outside
every reported comment range. -/
theorem lineComments_spec :
    (∀ (ln : Nat) (t : List Char) (fuel i co p : Nat),
      0 < fuel → findCommentOpen t i = some p → t[p + 1]? = some '/' →
      lineCommentsAux ln t fuel i true co =
        .ok [⟨sliceText t p t.length, ⟨ln, p, ln, t.length⟩, true⟩]) ∧
    (∀ (ln : Nat) (t : List Char) (i : Nat),
      findCommentClose t i = none →
      lineComments ln t i false =
        .ok [⟨sliceText t 0 t.length, ⟨ln, 0, ln, t.length⟩, false⟩] ∧
      carriedClosed [⟨sliceText t 0 t.length, ⟨ln, 0, ln, t.length⟩, false⟩]
        false = false) ∧
    (∀ (ln : Nat) (t : List Char) (fuel i co q : Nat) (rest : List TokenRange),
      findCommentClose t i = some q →
      lineCommentsAux ln t fuel (q + 2) true co = .ok rest →
      lineCommentsAux ln t (fuel + 1) i false co =
        .ok (⟨sliceText t co (q + 2), ⟨ln, co, ln, q + 2⟩, true⟩ :: rest)) ∧
    (∀ (ln1 ln2 : Nat) (t1 t2 : List Char) (i p q : Nat),
      findCommentOpen t1 i = some p → t1[p + 1]? = some '*' →
      findCommentClose t1 (p + 2) = none →
      findCommentClose t2 0 = some q →
      findCommentOpen t2 (q + 2) = none →
      (lineComments ln1 t1 i true =
          .ok [⟨sliceText t1 p t1.length, ⟨ln1, p, ln1, t1.length⟩, false⟩] ∧
        carriedClosed
          [⟨sliceText t1 p t1.length, ⟨ln1, p, ln1, t1.length⟩, false⟩]
          true = false) ∧
      (lineComments ln2 t2 0 false =
          .ok [⟨sliceText t2 0 (q + 2), ⟨ln2, 0, ln2, q + 2⟩, true⟩] ∧
        carriedClosed [⟨sliceText t2 0 (q + 2), ⟨ln2, 0, ln2, q + 2⟩, true⟩]
          false = true ∧
        (∀ c : Nat, q + 2 ≤ c → ¬ (⟨ln2, 0, ln2, q + 2⟩ : Rng).memChar c))) := by
  refine ⟨?_, ?_, ?_, ?_⟩
  · intro ln t fuel i co p hf h hc
    exact lineCommentsAux_closed_lineComment hf h hc
  · intro ln t i h
    exact ⟨lineCommentsAux_open_none (by omega) h, rfl⟩
  · intro ln t fuel i co q rest h hrest
    exact lineCommentsAux_open_close h hrest
  · intro ln1 ln2 t1 t2 i p q hopen hstar hnoclose hclose hnoopen
    have hb1 := findCommentOpen_facts hopen
    have hb2 := findCommentClose_facts hclose
    constructor
    · constructor
      · show lineCommentsAux ln1 t1 (t1.length + 1) i true 0 = _
        rw [lineCommentsAux_closed_blockOpen hopen hstar]
        exact lineCommentsAux_open_none (by omega) hnoclose
      · rfl
    · refine ⟨?_, rfl, ?_⟩
      · show lineCommentsAux ln2 t2 (t2.length + 1) 0 false 0 = _
        obtain ⟨f, hf⟩ : ∃ f, t2.length = f + 1 := ⟨t2.length - 1, by omega⟩
        rw [hf]
        rw [lineCommentsAux_open_close hclose
          (lineCommentsAux_closed_none (by omega) hnoopen)]
      · intro c hc hmem
        have h1 : c < q + 2 := hmem.2
        omega

/-- C2 witness: the scanner facts applied to concrete lines — a line
comment, and a block comment opened on one line and closed on the next. -/
theorem lineComments_spec_witness :
    lineCommentsAux 0 ['a', ' ', '/', '/', ' ', 'b'] 7 0 true 0 =
      .ok [⟨sliceText ['a', ' ', '/', '/', ' ', 'b'] 2 6, ⟨0, 2, 0, 6⟩, true⟩] ∧
    lineComments 0 ['x', ' ', '/', '*', ' ', 'a'] 0 true =
      .ok [⟨sliceText ['x', ' ', '/', '*', ' ', 'a'] 2 6, ⟨0, 2, 0, 6⟩, false⟩] ∧
    lineComments 1 ['b', ' ', '*', '/', ' ', 'c'] 0 false =
      .ok [⟨sliceText ['b', ' ', '*', '/', ' ', 'c'] 0 4, ⟨1, 0, 1, 4⟩, true⟩] ∧
    (∀ c : Nat, 4 ≤ c → ¬ (⟨1, 0, 1, 4⟩ : Rng).memChar c) :=
  have h4 := lineComments_spec.2.2.2 0 1 ['x', ' ', '/', '*', ' ', 'a']
    ['b', ' ', '*', '/', ' ', 'c'] 0 2 2 (by decide) (by decide) (by decide)
    (by decide) (by decide)
  ⟨lineComments_spec.1 0 ['a', ' ', '/', '/', ' ', 'b'] 7 0 0 2 (by decide)
      (by decide) (by decide),
    h4.1.1, h4.2.1, h4.2.2.2⟩

/-! ## Token Map state and lookup tasks (`TokenMap`, source lines 97-706) -/

/-- `QUALIFIED_IDENTIFIER` = `[a-zA-Z_]\w*(?:\.[a-zA-Z_]\w*)*`, raw search. -/
def qualIdentRawExec (t : List Char) (i : Nat) : Option (Nat × Nat) :=
  (findPos (fun l => match l with | c :: _ => isIdentStart c | [] => false)
      (t.drop i)).map
    fun k =>
      let run := ((t.drop (i + k)).takeWhile isWordChar).length
      (i + k, run + dotIdentRunsLen t.length ((t.drop (i + k)).drop run))

/-- The `QUALIFIED_IDENTIFIER` regex. -/
def qualIdentMatcher : RegexMatcher := mkSafeMatcher qualIdentRawExec

/-- Lookup in the `Map<TokenKind, ITokenRange[]>` accumulator, modelled as
an insertion-ordered association list (JS `Map` preserves insertion
order and keeps keys unique). -/
def tmGet (m : List (TokenKind × List TokenRange)) (k : TokenKind) :
    Option (List TokenRange) :=
  (m.find? fun e => e.1 == k).map (·.2)

/-- `Map.prototype.set`: replace the value of an existing key in place,
otherwise append the new entry. -/
def tmSet (m : List (TokenKind × List TokenRange)) (k : TokenKind)
    (v : List TokenRange) : List (TokenKind × List TokenRange) :=
  match m with
  | [] => [(k, v)]
  | e :: rest => if e.1 == k then (k, v) :: rest else e :: tmSet rest k v

/-- One entry of `TokenMap.upsert` (source lines 227-235): push onto the
existing array for the key, or set the new entry. -/
def upsertOne (m : List (TokenKind × List TokenRange)) (k : TokenKind)
    (v : List TokenRange) : List (TokenKind × List TokenRange) :=
  match tmGet m k with
  | some old => tmSet m k (old ++ v)
  | none => tmSet m k v

/-- `TokenMap.upsert`: fold the appendix entries in order. -/
def upsert (m : List (TokenKind × List TokenRange))
    (appendix : List (TokenKind × List TokenRange)) :
    List (TokenKind × List TokenRange) :=
  appendix.foldl (fun acc e => upsertOne acc e.1 e.2) m

/-- The mutable state of one `TokenMap` scan session: the document (its
lines), the current line number (`#line`), the scan cursor (`#lastIndex`)
and the token accumulator (`#tokens`). -/
structure ScanState where
  doc : List (List Char)
  lineNumber : Nat
  lastIndex : Nat
  tokens : List (TokenKind × List TokenRange)
deriving DecidableEq, Repr

/-- Text of the current line (`this.#line.text`). -/
def ScanState.lineText (σ : ScanState) : List Char := σ.doc.getD σ.lineNumber []

/-- The current line (`this.#line`). -/
def ScanState.line (σ : ScanState) : TextLine := ⟨σ.lineNumber, σ.lineText⟩

/-- `this.#doc.getText(range)` for the single-line ranges the engine
queries (every range passed to `getText` here comes from `matchRanges`,
which produces single-line ranges). -/
def ScanState.getText (σ : ScanState) (r : Rng) : List Char :=
  if r.startLine = r.endLine then
    sliceText (σ.doc.getD r.startLine []) r.startChar r.endChar
  else []

/-- The type of one lookup task: `(excludeRanges, searchText?) => result`,
with the session state made explicit.  A task returns the updated state
together with the token map to be upserted by the caller. -/
def LookupTask : Type :=
  ScanState → List TokenRange → Option RegexMatcher →
    Except LookupErrorCode (ScanState × List (TokenKind × List TokenRange))

/-- The `for (const range of searchRanges.value)` loop of `_token`
(source lines 643-663). -/
def tokenTaskLoop (kind : TokenKind) (σ : ScanState) (m : RegexMatcher) :
    List Rng →
      Except LookupErrorCode (ScanState × List (TokenKind × List TokenRange))
  | [] => .error .NotFound
  | range :: rest =>
    match matchRanges σ.line range m σ.lastIndex 1 with
    | [] => tokenTaskLoop kind σ m rest
    | mtch :: _ =>
      .ok ({σ with lastIndex := mtch.range.endChar},
        [(kind, [⟨mtch.fullMatch, mtch.range, true⟩])])

/-- `TokenMap._token` (source lines 626-669). -/
def tokenTask (kind : TokenKind) (σ : ScanState) (excludeRanges : List TokenRange)
    (m : RegexMatcher) :
    Except LookupErrorCode (ScanState × List (TokenKind × List TokenRange)) :=
  match excludeLineRanges σ.line excludeRanges with
  | .error _ => .error .InvalidExcludeRanges
  | .ok searchRanges => tokenTaskLoop kind σ m searchRanges

/-- Substring test of an unanchored regex alternative (`RegExp.test`). -/
def regexTestSub (pat t : List Char) : Bool :=
  (findPos (fun l => pat.isPrefixOf l) t).isSome

/-- `new RegExp(FIELD_CARDINALITY).test(...)` with
`FIELD_CARDINALITY = 'required|optional|repeated'` — an unanchored test,
true whenever the text merely contains one of the keywords. -/
def cardinalityTest (t : List Char) : Bool :=
  regexTestSub "required".toList t || regexTestSub "optional".toList t ||
    regexTestSub "repeated".toList t

/-- `new RegExp(FIELD_DECLARATION_EXCEPTIONS).test(...)` where the pattern
is `^group|message|enum|oneof|reserved|extensions|extend|option|required|optional|repeated`:
the `^` binds only to the first alternative, so `group` is a prefix test
while every other keyword is an unanchored substring test. -/
def fieldDeclExceptionsTest (t : List Char) : Bool :=
  "group".toList.isPrefixOf t ||
  regexTestSub "message".toList t || regexTestSub "enum".toList t ||
  regexTestSub "oneof".toList t || regexTestSub "reserved".toList t ||
  regexTestSub "extensions".toList t || regexTestSub "extend".toList t ||
  regexTestSub "option".toList t || cardinalityTest t

/-- `TokenMap._validateFieldType` (source lines 681-705). -/
def validateFieldType (σ : ScanState) (fieldType : MatchRange)
    (cardinality : Option TokenRange) : Except LookupErrorCode Unit :=
  if cardinality.isSome ∧ σ.getText fieldType.range = "group".toList then
    .error .UnexpectedGroup
  else if cardinality.isNone ∧ fieldDeclExceptionsTest (σ.getText fieldType.range) then
    .error .UnexpectedFieldType
  else .ok ()

/-- Tail of `_fieldType` once the type candidate is resolved (source lines
333-346): validate, then return the `FieldType` entry advancing the
cursor past the type. -/
def fieldTypeFinish (σ : ScanState) (cardinality : Option TokenRange)
    (fieldType : MatchRange) :
    Except LookupErrorCode (ScanState × List (TokenKind × List TokenRange)) :=
  match validateFieldType σ fieldType cardinality with
  | .error e => .error e
  | .ok _ =>
    .ok ({σ with lastIndex := fieldType.range.endChar},
      [(.FieldType, [⟨fieldType.fullMatch, fieldType.range, true⟩])])

/-- The `for (const range of searchRanges.value)` loop of `_fieldType`
(source lines 302-347): match up to two candidates (one if cardinality is
already known); when cardinality is still unknown and the first
candidate's text passes the cardinality regex test, record it as
`FieldCardinality` (upserted directly into the session tokens), advance
the cursor, and promote the second candidate to type candidate.

Modelling note: on the `NotFound` path the `Except` error carries no
state, so a cardinality recording made in an earlier loop iteration of
an invocation that ends in `NotFound` is local to that invocation,
whereas the source's in-place `this.upsert`/`this.#lastIndex` mutations
would persist in the session across the absorbed `NotFound`.  The
properties proved below concern completed (non-`NotFound`) invocations
and the cursor, which this choice does not affect. -/
def fieldTypeLoop (m : RegexMatcher) (σ : ScanState)
    (cardinality : Option TokenRange) :
    List Rng →
      Except LookupErrorCode (ScanState × List (TokenKind × List TokenRange))
  | [] => .error .NotFound
  | range :: rest =>
    match matchRanges σ.line range m σ.lastIndex
        (if cardinality.isSome then 1 else 2) with
    | [] => fieldTypeLoop m σ cardinality rest
    | firstMatch :: others =>
      if cardinality.isNone ∧ cardinalityTest (σ.getText firstMatch.range) then
        let card : TokenRange := ⟨firstMatch.fullMatch, firstMatch.range, true⟩
        let σ' : ScanState :=
          { σ with tokens := upsert σ.tokens [(.FieldCardinality, [card])],
                   lastIndex := firstMatch.range.endChar }
        match others.head? with
        | none => fieldTypeLoop m σ' (some card) rest
        | some secondMatch => fieldTypeFinish σ' (some card) secondMatch
      else fieldTypeFinish σ cardinality firstMatch

/-- `TokenMap._fieldType` (source lines 287-353). -/
def fieldTypeTask (m : RegexMatcher) (σ : ScanState)
    (excludeRanges : List TokenRange) :
    Except LookupErrorCode (ScanState × List (TokenKind × List TokenRange)) :=
  match excludeLineRanges σ.line excludeRanges with
  | .error _ => .error .InvalidExcludeRanges
  | .ok searchRanges =>
    fieldTypeLoop m σ ((tmGet σ.tokens .FieldCardinality).getD []).head?
      searchRanges

/-- `new RegExp(ENUM_VALUE_NAME_EXCEPTIONS).test(...)` with the pattern
`^(?:option|reserved)` — anchored, so a prefix test. -/
def enumValueNameExceptionsTest (t : List Char) : Bool :=
  "option".toList.isPrefixOf t || "reserved".toList.isPrefixOf t

/-- `TokenMap._enumValueName` (source lines 249-274). -/
def enumValueNameTask (σ : ScanState) (excludeRanges : List TokenRange)
    (searchMatcher : Option RegexMatcher) :
    Except LookupErrorCode (ScanState × List (TokenKind × List TokenRange)) :=
  match tokenTask .EnumValueName σ excludeRanges
      (searchMatcher.getD identMatcher) with
  | .ok (σ', app) =>
    match ((tmGet app .EnumValueName).getD []).head? with
    | some tr =>
      if enumValueNameExceptionsTest tr.fullMatch then
        .error .UnexpectedEnumValueName
      else .ok (σ', app)
    | none => .ok (σ', app)
  | .error e => .error e

/-- `TokenMap._enum` (searches the keyword regex `enum`). -/
def enumTask : LookupTask := fun σ exc _ =>
  tokenTask .Enum σ exc (literalMatcher "enum".toList)

/-- `TokenMap._enumName` (`searchText ?? IDENTIFIER`). -/
def enumNameTask : LookupTask := fun σ exc searchMatcher =>
  tokenTask .EnumName σ exc (searchMatcher.getD identMatcher)

/-- `TokenMap._enumValueName` as a `LookupTask`. -/
def enumValueNameTaskT : LookupTask := fun σ exc searchMatcher =>
  enumValueNameTask σ exc searchMatcher

/-- `TokenMap._fieldType` as a `LookupTask` (no `searchText` parameter in
the source
signature). -/
def fieldTypeTaskT : LookupTask := fun σ exc _ =>
  fieldTypeTask fieldTypeMatcher σ exc

/-- `TokenMap._fieldName` (`searchText ?? IDENTIFIER`). -/
def fieldNameTask : LookupTask := fun σ exc searchMatcher =>
  tokenTask .FieldName σ exc (searchMatcher.getD identMatcher)

/-- `TokenMap._message`. -/
def messageTask : LookupTask := fun σ exc _ =>
  tokenTask .Message σ exc (literalMatcher "message".toList)

/-- `TokenMap._messageName`. -/
def messageNameTask : LookupTask := fun σ exc searchMatcher =>
  tokenTask .MessageName σ exc (searchMatcher.getD identMatcher)

/-- `TokenMap._package`. -/
def packageTask : LookupTask := fun σ exc _ =>
  tokenTask .Package σ exc (literalMatcher "package".toList)

/-- `TokenMap._packageName` (`searchText ?? QUALIFIED_IDENTIFIER`). -/
def packageNameTask : LookupTask := fun σ exc searchMatcher =>
  tokenTask .PackageName σ exc (searchMatcher.getD qualIdentMatcher)

/-- `TokenMap._required`. -/
def requiredTask : LookupTask := fun σ exc _ =>
  tokenTask .Required σ exc (literalMatcher "required".toList)

/-- `TokenMap._rpc`. -/
def rpcTask : LookupTask := fun σ exc _ =>
  tokenTask .Rpc σ exc (literalMatcher "rpc".toList)

/-- `TokenMap._rpcName`. -/
def rpcNameTask : LookupTask := fun σ exc searchMatcher =>
  tokenTask .RpcName σ exc (searchMatcher.getD identMatcher)

/-- `TokenMap._service`. -/
def serviceTask : LookupTask := fun σ exc _ =>
  tokenTask .Service σ exc (literalMatcher "service".toList)

/-- `TokenMap._serviceName`. -/
def serviceNameTask : LookupTask := fun σ exc searchMatcher =>
  tokenTask .ServiceName σ exc (searchMatcher.getD identMatcher)

/-- `TokenMap._getTasks` (source lines 362-416): the static ordered task
list per token kind; the eight kinds without a standalone task list fail
with `NotImplemented`. -/
def getTasks (kind : TokenKind) : Except LookupErrorCode (List LookupTask) :=
  match kind with
  | .Comment | .Enum | .FieldCardinality | .FieldType
  | .Message | .Package | .Rpc | .Service => .error .NotImplemented
  | .EnumName => .ok [enumTask, enumNameTask]
  | .EnumValueName => .ok [enumValueNameTaskT]
  | .FieldName => .ok [fieldTypeTaskT, fieldNameTask]
  | .MessageName => .ok [messageTask, messageNameTask]
  | .PackageName => .ok [packageTask, packageNameTask]
  | .Required => .ok [requiredTask]
  | .RpcName => .ok [rpcTask, rpcNameTask]
  | .ServiceName => .ok [serviceTask, serviceNameTask]

/-- `TokenMap._parseCurrentLineComments` (source lines 559-576): run the
comment scanner for the current line from the cursor, merge the result
into the accumulator, and compute the carried closed state. -/
def parseCurrentLineComments (σ : ScanState) (commentClosed : Bool) :
    Except LookupErrorCode (ScanState × Bool × List TokenRange) :=
  match lineComments σ.lineNumber σ.lineText σ.lastIndex commentClosed with
  | .error e => .error e
  | .ok comments =>
    .ok ({ σ with tokens := upsert σ.tokens [(.Comment, comments)] },
      carriedClosed comments commentClosed, comments)

/-- The `for (const task of tasksRemained)` loop of `parseFragment`
(source lines 186-200): run the pending tasks in order; a success upserts
the task's tokens and removes the task (`tasks.shift()`); a `NotFound`
stops the line's task processing keeping the failed task pending; any
other error aborts. -/
def runTasks (σ : ScanState) (comments : List TokenRange)
    (searchMatcher : Option RegexMatcher) :
    List LookupTask → Except LookupErrorCode (ScanState × List LookupTask)
  | [] => .ok (σ, [])
  | task :: rest =>
    match task σ comments searchMatcher with
    | .ok (σ', appendix) =>
      runTasks { σ' with tokens := upsert σ'.tokens appendix } comments
        searchMatcher rest
    | .error e =>
      if e = .NotFound then .ok (σ, task :: rest)
      else .error e

/-- The per-line loop of `parseFragment` (source lines 169-209), recursing
on the number of remaining document lines: scan the line's comments, run
the pending tasks against them, return the first recorded range of the
requested kind if any, otherwise reset the cursor to 0 and continue on
the next line; exhaustion yields `NotFound`. -/
def parseLines (kind : TokenKind) (searchMatcher : Option RegexMatcher) :
    Nat → ScanState → Bool → List LookupTask → Except LookupErrorCode Rng
  | 0, _, _, _ => .error .NotFound
  | remaining + 1, σ, commentClosed, tasks =>
    match parseCurrentLineComments σ commentClosed with
    | .error e => .error e
    | .ok (σ₁, carried, comments) =>
      match runTasks σ₁ comments searchMatcher tasks with
      | .error e => .error e
      | .ok (σ₂, tasksLeft) =>
        match ((tmGet σ₂.tokens kind).getD []).head? with
        | some tr => .ok tr.range
        | none =>
          parseLines kind searchMatcher remaining
            { σ₂ with lineNumber := σ₂.lineNumber + 1, lastIndex := 0 }
            carried tasksLeft

/-- `TokenMap.parseFragment` (source lines 144-217) for a fresh scan
session on `doc`: set the cursor, resolve the task list
(`NotImplemented` for kinds without one), validate the start line
(`LineNumber`), then walk the lines. -/
def parseFragment (doc : List (List Char)) (kind : TokenKind)
    (lineNumber lastIndex : Nat) (searchMatcher : Option RegexMatcher) :
    Except LookupErrorCode Rng :=
  match getTasks kind with
  | .error e => .error e
  | .ok tasks =>
    if lineNumber < doc.length then
      parseLines kind searchMatcher (doc.length - lineNumber)
        ⟨doc, lineNumber, lastIndex, []⟩ true tasks
    else .error .LineNumber

/-! ## Cursor monotonicity lemmas -/

theorem matchRanges_window (line : TextLine) (seekRange : Rng)
    (m : RegexMatcher) (lastIndex limit : Nat) :
    ∀ mr ∈ matchRanges line seekRange m lastIndex limit,
      lastIndex ≤ mr.range.startChar ∧
      mr.range.startChar ≤ mr.range.endChar := by
  intro mr hmr
  unfold matchRanges at hmr
  by_cases h0 : limit = 0
  · rw [if_pos h0] at hmr
    cases hmr
  · rw [if_neg h0] at hmr
    rw [List.mem_map] at hmr
    obtain ⟨p, hp, rfl⟩ := hmr
    have hpmem : p ∈ jsMatchAll m (line.text.take seekRange.endChar)
        (max seekRange.startChar lastIndex) := List.mem_of_mem_take hp
    have h1 := matchAllAux_ge m (line.text.take seekRange.endChar) _ _ p hpmem
    constructor
    · show lastIndex ≤ p.1
      omega
    · show p.1 ≤ p.1 + p.2
      omega

theorem matchRanges_separated (line : TextLine) (seekRange : Rng)
    (m : RegexMatcher) (lastIndex limit : Nat) :
    (matchRanges line seekRange m lastIndex limit).Pairwise
      fun a b => a.range.endChar ≤ b.range.startChar := by
  unfold matchRanges
  by_cases h0 : limit = 0
  · rw [if_pos h0]
    exact List.Pairwise.nil
  · rw [if_neg h0]
    rw [List.pairwise_map]
    have hord := matchAllAux_ordered m (line.text.take seekRange.endChar)
      ((line.text.take seekRange.endChar).length + 1)
      (max seekRange.startChar lastIndex)
    exact ((hord.sublist (List.take_sublist _ _)).imp fun h => h.2)

theorem tokenTaskLoop_mono {kind : TokenKind} {m : RegexMatcher} :
    ∀ {ranges : List Rng} {σ σ' : ScanState}
      {app : List (TokenKind × List TokenRange)},
      tokenTaskLoop kind σ m ranges = .ok (σ', app) →
      σ.lastIndex ≤ σ'.lastIndex := by
  intro ranges
  induction ranges with
  | nil => intro σ σ' app h; cases h
  | cons range rest ih =>
    intro σ σ' app h
    unfold tokenTaskLoop at h
    cases hm : matchRanges σ.line range m σ.lastIndex 1 with
    | nil => rw [hm] at h; exact ih h
    | cons mtch others =>
      rw [hm] at h
      have hmem : mtch ∈ matchRanges σ.line range m σ.lastIndex 1 := by
        rw [hm]; exact List.mem_cons_self _ _
      have hw := matchRanges_window σ.line range m σ.lastIndex 1 mtch hmem
      have hσ : ({ σ with lastIndex := mtch.range.endChar } : ScanState) = σ' := by
        have := Except.ok.inj h
        exact congrArg Prod.fst this
      rw [← hσ]
      show σ.lastIndex ≤ mtch.range.endChar
      omega

theorem tokenTask_mono {kind : TokenKind} {σ : ScanState}
    {exc : List TokenRange} {m : RegexMatcher} {σ' : ScanState}
    {app : List (TokenKind × List TokenRange)}
    (h : tokenTask kind σ exc m = .ok (σ', app)) :
    σ.lastIndex ≤ σ'.lastIndex := by
  unfold tokenTask at h
  cases he : excludeLineRanges σ.line exc with
  | error e => rw [he] at h; cases h
  | ok searchRanges =>
    rw [he] at h
    exact tokenTaskLoop_mono h

theorem fieldTypeFinish_ok {σ : ScanState} {cardinality : Option TokenRange}
    {fieldType : MatchRange} {σ' : ScanState}
    {app : List (TokenKind × List TokenRange)}
    (h : fieldTypeFinish σ cardinality fieldType = .ok (σ', app)) :
    σ' = { σ with lastIndex := fieldType.range.endChar } ∧
    app = [(.FieldType, [⟨fieldType.fullMatch, fieldType.range, true⟩])] := by
  unfold fieldTypeFinish at h
  cases hv : validateFieldType σ fieldType cardinality with
  | error e => rw [hv] at h; cases h
  | ok u =>
    rw [hv] at h
    have := Except.ok.inj h
    exact ⟨(congrArg Prod.fst this).symm, (congrArg Prod.snd this).symm⟩

theorem fieldTypeLoop_mono {m : RegexMatcher} :
    ∀ {ranges : List Rng} {σ : ScanState} {cardinality : Option TokenRange}
      {σ' : ScanState} {app : List (TokenKind × List TokenRange)},
      fieldTypeLoop m σ cardinality ranges = .ok (σ', app) →
      σ.lastIndex ≤ σ'.lastIndex := by
  intro ranges
  induction ranges with
  | nil => intro σ c σ' app h; cases h
  | cons range rest ih =>
    intro σ c σ' app h
    unfold fieldTypeLoop at h
    cases hm : matchRanges σ.line range m σ.lastIndex
        (if c.isSome then 1 else 2) with
    | nil => rw [hm] at h; exact ih h
    | cons firstMatch others =>
      simp only [hm] at h
      have hmem1 : firstMatch ∈ matchRanges σ.line range m σ.lastIndex
          (if c.isSome then 1 else 2) := by
        rw [hm]; exact List.mem_cons_self _ _
      have hw1 := matchRanges_window σ.line range m σ.lastIndex _ firstMatch hmem1
      by_cases hcond : c.isNone ∧ cardinalityTest (σ.getText firstMatch.range) = true
      · rw [if_pos hcond] at h
        cases ho : others.head? with
        | none =>
          rw [ho] at h
          have h2 : firstMatch.range.endChar ≤ σ'.lastIndex := ih h
          omega
        | some secondMatch =>
          rw [ho] at h
          obtain ⟨hσ', -⟩ := fieldTypeFinish_ok h
          have hmem2 : secondMatch ∈ others := by
            cases others with
            | nil => cases ho
            | cons a b =>
              have : a = secondMatch := Option.some.inj ho
              rw [← this]; exact List.mem_cons_self _ _
          have hsep := matchRanges_separated σ.line range m σ.lastIndex
            (if c.isSome then 1 else 2)
          rw [hm, List.pairwise_cons] at hsep
          have h12 := hsep.1 secondMatch hmem2
          have hw2 : secondMatch.range.startChar ≤ secondMatch.range.endChar := by
            have hmem2' : secondMatch ∈ matchRanges σ.line range m σ.lastIndex
                (if c.isSome then 1 else 2) := by
              rw [hm]; exact List.mem_cons_of_mem _ hmem2
            exact (matchRanges_window σ.line range m σ.lastIndex _
              secondMatch hmem2').2
          rw [hσ']
          show σ.lastIndex ≤ secondMatch.range.endChar
          omega
      · rw [if_neg hcond] at h
        obtain ⟨hσ', -⟩ := fieldTypeFinish_ok h
        rw [hσ']
        show σ.lastIndex ≤ firstMatch.range.endChar
        omega

theorem fieldTypeTask_mono {m : RegexMatcher} {σ : ScanState}
    {exc : List TokenRange} {σ' : ScanState}
    {app : List (TokenKind × List TokenRange)}
    (h : fieldTypeTask m σ exc = .ok (σ', app)) :
    σ.lastIndex ≤ σ'.lastIndex := by
  unfold fieldTypeTask at h
  cases he : excludeLineRanges σ.line exc with
  | error e => rw [he] at h; cases h
  | ok searchRanges =>
    rw [he] at h
    exact fieldTypeLoop_mono h

theorem enumValueNameTask_mono {σ : ScanState} {exc : List TokenRange}
    {sm : Option RegexMatcher} {σ' : ScanState}
    {app : List (TokenKind × List TokenRange)}
    (h : enumValueNameTask σ exc sm = .ok (σ', app)) :
    σ.lastIndex ≤ σ'.lastIndex := by
  unfold enumValueNameTask at h
  cases ht : tokenTask .EnumValueName σ exc (sm.getD identMatcher) with
  | error e => rw [ht] at h; cases h
  | ok pr =>
    obtain ⟨σ'', app''⟩ := pr
    simp only [ht] at h
    have hmono := tokenTask_mono ht
    cases hh : ((tmGet app'' .EnumValueName).getD []).head? with
    | some tr =>
      simp only [hh] at h
      by_cases hex : enumValueNameExceptionsTest tr.fullMatch = true
      · rw [if_pos hex] at h; cases h
      · rw [if_neg hex] at h
        have := Except.ok.inj h
        have hσ : σ'' = σ' := congrArg Prod.fst this
        rw [← hσ]; exact hmono
    | none =>
      simp only [hh] at h
      have := Except.ok.inj h
      have hσ : σ'' = σ' := congrArg Prod.fst this
      rw [← hσ]; exact hmono

/-- C9: scan-cursor monotonicity.  Every successful lookup task of every
token kind's task list moves the cursor `lastIndex` to a value at least
its value before the task ran; consequently, within one line (between the
per-line resets), a run of the pending tasks never decreases the
cursor — for every document, token kind and search text. -/
theorem scanCursor_monotone :
    (∀ (kind : TokenKind) (tasks : List LookupTask),
      getTasks kind = .ok tasks →
      ∀ task ∈ tasks, ∀ (σ : ScanState) (exc : List TokenRange)
        (sm : Option RegexMatcher) (σ' : ScanState)
        (app : List (TokenKind × List TokenRange)),
        task σ exc sm = .ok (σ', app) → σ.lastIndex ≤ σ'.lastIndex) ∧
    (∀ (tasks : List LookupTask),
      (∀ task ∈ tasks, ∀ (σ : ScanState) (exc : List TokenRange)
        (sm : Option RegexMatcher) (σ' : ScanState)
        (app : List (TokenKind × List TokenRange)),
        task σ exc sm = .ok (σ', app) → σ.lastIndex ≤ σ'.lastIndex) →
      ∀ (σ : ScanState) (comments : List TokenRange)
        (sm : Option RegexMatcher) (σ₂ : ScanState) (rem : List LookupTask),
        runTasks σ comments sm tasks = .ok (σ₂, rem) →
        σ.lastIndex ≤ σ₂.lastIndex) := by
  constructor
  · intro kind tasks h task htask σ exc sm σ' app hok
    cases kind with
    | Comment => cases h
    | Enum => cases h
    | FieldCardinality => cases h
    | FieldType => cases h
    | Message => cases h
    | Package => cases h
    | Rpc => cases h
    | Service => cases h
    | EnumName =>
      have htasks : [enumTask, enumNameTask] = tasks := Except.ok.inj h
      subst htasks
      rcases List.mem_cons.mp htask with rfl | htask
      · have hok' : tokenTask .Enum σ exc (literalMatcher "enum".toList) =
            .ok (σ', app) := hok
        exact tokenTask_mono hok'
      · rcases List.mem_singleton.mp htask with rfl
        have hok' : tokenTask .EnumName σ exc (sm.getD identMatcher) =
            .ok (σ', app) := hok
        exact tokenTask_mono hok'
    | EnumValueName =>
      have htasks : [enumValueNameTaskT] = tasks := Except.ok.inj h
      subst htasks
      rcases List.mem_singleton.mp htask with rfl
      have hok' : enumValueNameTask σ exc sm = .ok (σ', app) := hok
      exact enumValueNameTask_mono hok'
    | FieldName =>
      have htasks : [fieldTypeTaskT, fieldNameTask] = tasks := Except.ok.inj h
      subst htasks
      rcases List.mem_cons.mp htask with rfl | htask
      · have hok' : fieldTypeTask fieldTypeMatcher σ exc = .ok (σ', app) := hok
        exact fieldTypeTask_mono hok'
      · rcases List.mem_singleton.mp htask with rfl
        have hok' : tokenTask .FieldName σ exc (sm.getD identMatcher) =
            .ok (σ', app) := hok
        exact tokenTask_mono hok'
    | MessageName =>
      have htasks : [messageTask, messageNameTask] = tasks := Except.ok.inj h
      subst htasks
      rcases List.mem_cons.mp htask with rfl | htask
      · have hok' : tokenTask .Message σ exc (literalMatcher "message".toList) =
            .ok (σ', app) := hok
        exact tokenTask_mono hok'
      · rcases List.mem_singleton.mp htask with rfl
        have hok' : tokenTask .MessageName σ exc (sm.getD identMatcher) =
            .ok (σ', app) := hok
        exact tokenTask_mono hok'
    | PackageName =>
      have htasks : [packageTask, packageNameTask] = tasks := Except.ok.inj h
      subst htasks
      rcases List.mem_cons.mp htask with rfl | htask
      · have hok' : tokenTask .Package σ exc (literalMatcher "package".toList) =
            .ok (σ', app) := hok
        exact tokenTask_mono hok'
      · rcases List.mem_singleton.mp htask with rfl
        have hok' : tokenTask .PackageName σ exc (sm.getD qualIdentMatcher) =
            .ok (σ', app) := hok
        exact tokenTask_mono hok'
    | Required =>
      have htasks : [requiredTask] = tasks := Except.ok.inj h
      subst htasks
      rcases List.mem_singleton.mp htask with rfl
      have hok' : tokenTask .Required σ exc (literalMatcher "required".toList) =
          .ok (σ', app) := hok
      exact tokenTask_mono hok'
    | RpcName =>
      have htasks : [rpcTask, rpcNameTask] = tasks := Except.ok.inj h
      subst htasks
      rcases List.mem_cons.mp htask with rfl | htask
      · have hok' : tokenTask .Rpc σ exc (literalMatcher "rpc".toList) =
            .ok (σ', app) := hok
        exact tokenTask_mono hok'
      · rcases List.mem_singleton.mp htask with rfl
        have hok' : tokenTask .RpcName σ exc (sm.getD identMatcher) =
            .ok (σ', app) := hok
        exact tokenTask_mono hok'
    | ServiceName =>
      have htasks : [serviceTask, serviceNameTask] = tasks := Except.ok.inj h
      subst htasks
      rcases List.mem_cons.mp htask with rfl | htask
      · have hok' : tokenTask .Service σ exc (literalMatcher "service".toList) =
            .ok (σ', app) := hok
        exact tokenTask_mono hok'
      · rcases List.mem_singleton.mp htask with rfl
        have hok' : tokenTask .ServiceName σ exc (sm.getD identMatcher) =
            .ok (σ', app) := hok
        exact tokenTask_mono hok'
  · intro tasks
    induction tasks with
    | nil =>
      intro _ σ comments sm σ₂ rem h
      have := Except.ok.inj h
      have hσ : σ = σ₂ := congrArg Prod.fst this
      rw [hσ]
    | cons task rest ih =>
      intro hmono σ comments sm σ₂ rem h
      unfold runTasks at h
      cases ht : task σ comments sm with
      | ok pr =>
        obtain ⟨σ', appendix⟩ := pr
        simp only [ht] at h
        have h1 : σ.lastIndex ≤ σ'.lastIndex :=
          hmono task (List.mem_cons_self _ _) σ comments sm σ' appendix ht
        have h2 : σ'.lastIndex ≤ σ₂.lastIndex :=
          ih (fun t htm => hmono t (List.mem_cons_of_mem _ htm))
            { σ' with tokens := upsert σ'.tokens appendix } comments sm
            σ₂ rem h
        omega
      | error e =>
        simp only [ht] at h
        by_cases he : e = .NotFound
        · rw [if_pos he] at h
          have := Except.ok.inj h
          have hσ : σ = σ₂ := congrArg Prod.fst this
          rw [hσ]
        · rw [if_neg he] at h
          cases h

/-- C9 witness: the cursor-monotonicity fact applied to the `Required`
task list on a concrete line (`lastIndex` moves from 0 to 10). -/
theorem scanCursor_monotone_witness :
    getTasks .Required = .ok [requiredTask] ∧
    requiredTask ⟨[[' ', ' ', 'r', 'e', 'q', 'u', 'i', 'r', 'e', 'd', ' ', 'x']],
        0, 0, []⟩ [] none =
      .ok (⟨[[' ', ' ', 'r', 'e', 'q', 'u', 'i', 'r', 'e', 'd', ' ', 'x']],
          0, 10, []⟩,
        [(.Required, [⟨['r', 'e', 'q', 'u', 'i', 'r', 'e', 'd'],
          ⟨0, 2, 0, 10⟩, true⟩])]) ∧
    (⟨[[' ', ' ', 'r', 'e', 'q', 'u', 'i', 'r', 'e', 'd', ' ', 'x']],
        0, 0, []⟩ : ScanState).lastIndex ≤
      (⟨[[' ', ' ', 'r', 'e', 'q', 'u', 'i', 'r', 'e', 'd', ' ', 'x']],
        0, 10, []⟩ : ScanState).lastIndex :=
  ⟨rfl, rfl,
    scanCursor_monotone.1 .Required [requiredTask] rfl requiredTask
      (List.mem_cons_self _ _)
      ⟨[[' ', ' ', 'r', 'e', 'q', 'u', 'i', 'r', 'e', 'd', ' ', 'x']], 0, 0, []⟩
      [] none
      ⟨[[' ', ' ', 'r', 'e', 'q', 'u', 'i', 'r', 'e', 'd', ' ', 'x']], 0, 10, []⟩
      [(.Required, [⟨['r', 'e', 'q', 'u', 'i', 'r', 'e', 'd'],
        ⟨0, 2, 0, 10⟩, true⟩])]
      rfl⟩

/-- C4: error propagation of `parseFragment`.  Requesting one of the eight
kinds without a standalone task list fails with `NotImplemented`; a
task's `NotFound` is absorbed locally (the remaining tasks of the line
are skipped, the failed task stays pending, and the scan moves to the
next line); any other task error aborts the whole call and is returned
verbatim; and an exhausted document yields `NotFound`. -/
theorem parseFragment_propagation :
    (∀ (doc : List (List Char)) (lineNumber lastIndex : Nat)
        (sm : Option RegexMatcher) (kind : TokenKind),
      kind ∈ [TokenKind.Comment, .Enum, .FieldCardinality, .FieldType,
        .Message, .Package, .Rpc, .Service] →
      parseFragment doc kind lineNumber lastIndex sm =
        .error .NotImplemented) ∧
    (∀ (σ : ScanState) (comments : List TokenRange) (sm : Option RegexMatcher)
        (task : LookupTask) (rest : List LookupTask),
      task σ comments sm = .error .NotFound →
      runTasks σ comments sm (task :: rest) = .ok (σ, task :: rest)) ∧
    (∀ (σ : ScanState) (comments : List TokenRange) (sm : Option RegexMatcher)
        (task : LookupTask) (rest : List LookupTask) (e : LookupErrorCode),
      task σ comments sm = .error e → e ≠ .NotFound →
      runTasks σ comments sm (task :: rest) = .error e) ∧
    (∀ (kind : TokenKind) (sm : Option RegexMatcher) (remaining : Nat)
        (σ σ₁ σ₂ : ScanState) (commentClosed carried : Bool)
        (comments : List TokenRange) (tasks tasksLeft : List LookupTask)
        (e : LookupErrorCode),
      parseCurrentLineComments σ commentClosed = .ok (σ₁, carried, comments) →
      (runTasks σ₁ comments sm tasks = .error e →
        parseLines kind sm (remaining + 1) σ commentClosed tasks = .error e) ∧
      (runTasks σ₁ comments sm tasks = .ok (σ₂, tasksLeft) →
        ((tmGet σ₂.tokens kind).getD []).head? = none →
        parseLines kind sm (remaining + 1) σ commentClosed tasks =
          parseLines kind sm remaining
            { σ₂ with lineNumber := σ₂.lineNumber + 1, lastIndex := 0 }
            carried tasksLeft)) ∧
    (∀ (kind : TokenKind) (sm : Option RegexMatcher) (σ : ScanState)
        (commentClosed : Bool) (tasks : List LookupTask),
      parseLines kind sm 0 σ commentClosed tasks = .error .NotFound) := by
  refine ⟨?_, ?_, ?_, ?_, ?_⟩
  · intro doc lineNumber lastIndex sm kind hk
    simp only [List.mem_cons, List.mem_singleton, List.not_mem_nil,
      or_false] at hk
    rcases hk with rfl | rfl | rfl | rfl | rfl | rfl | rfl | rfl <;> rfl
  · intro σ comments sm task rest h
    unfold runTasks
    simp only [h]
    simp
  · intro σ comments sm task rest e h he
    unfold runTasks
    simp only [h]
    rw [if_neg he]
  · intro kind sm remaining σ σ₁ σ₂ commentClosed carried comments tasks
      tasksLeft e hcomments
    constructor
    · intro hrun
      unfold parseLines
      simp only [hcomments, hrun]
    · intro hrun hkind
      conv_lhs => unfold parseLines
      simp only [hcomments, hrun, hkind]
  · intro kind sm σ commentClosed tasks
    rfl

/-- C4 witness: the propagation policy exercised on concrete calls — an
unsupported kind, an absorbed `NotFound`, an aborting
`UnexpectedEnumValueName`, a line handover, and document exhaustion. -/
theorem parseFragment_propagation_witness :
    parseFragment [['a']] .Comment 0 0 none = .error .NotImplemented ∧
    (requiredTask ⟨[['a', 'b']], 0, 0, []⟩ [] none = .error .NotFound ∧
      runTasks ⟨[['a', 'b']], 0, 0, []⟩ [] none [requiredTask] =
        .ok (⟨[['a', 'b']], 0, 0, []⟩, [requiredTask])) ∧
    (enumValueNameTaskT
        ⟨[['o', 'p', 't', 'i', 'o', 'n', 's', ' ', '=', ' ', '1', ';']],
          0, 0, []⟩ [] none = .error .UnexpectedEnumValueName ∧
      runTasks ⟨[['o', 'p', 't', 'i', 'o', 'n', 's', ' ', '=', ' ', '1', ';']],
          0, 0, []⟩ [] none [enumValueNameTaskT] =
        .error .UnexpectedEnumValueName) ∧
    parseLines .Required none 2 ⟨[['a', 'b'], ['c', 'd']], 0, 0, []⟩ true
        [requiredTask] =
      parseLines .Required none 1
        ⟨[['a', 'b'], ['c', 'd']], 1, 0, [(.Comment, [])]⟩ true
        [requiredTask] ∧
    parseLines .Required none 0 ⟨[['a', 'b']], 0, 0, []⟩ true [] =
      .error .NotFound :=
  ⟨parseFragment_propagation.1 [['a']] 0 0 none .Comment (by decide),
    ⟨rfl, parseFragment_propagation.2.1 ⟨[['a', 'b']], 0, 0, []⟩ [] none
      requiredTask [] rfl⟩,
    ⟨rfl, parseFragment_propagation.2.2.1
      ⟨[['o', 'p', 't', 'i', 'o', 'n', 's', ' ', '=', ' ', '1', ';']], 0, 0, []⟩
      [] none enumValueNameTaskT [] .UnexpectedEnumValueName rfl (by decide)⟩,
    (parseFragment_propagation.2.2.2.1 .Required none 1
        ⟨[['a', 'b'], ['c', 'd']], 0, 0, []⟩
        ⟨[['a', 'b'], ['c', 'd']], 0, 0, [(.Comment, [])]⟩
        ⟨[['a', 'b'], ['c', 'd']], 0, 0, [(.Comment, [])]⟩ true true []
        [requiredTask] [requiredTask] .NotFound rfl).2
      (parseFragment_propagation.2.1
        ⟨[['a', 'b'], ['c', 'd']], 0, 0, [(.Comment, [])]⟩ [] none
        requiredTask [] rfl) rfl,
    parseFragment_propagation.2.2.2.2 .Required none ⟨[['a', 'b']], 0, 0, []⟩
      true []⟩

/-! ## Claims C5 and C3 -/

/-- C5 (amended): an `EnumValueName` lookup whose candidate match has text
**beginning with** `option` or `reserved` (the anchored exception regex
`^(?:option|reserved)`) fails with `UnexpectedEnumValueName`, and only
such matches are rejected: any other candidate is returned as a
success. -/
theorem enumValueName_reject_iff (σ : ScanState) (exc : List TokenRange)
    (sm : Option RegexMatcher) (σ' : ScanState)
    (app : List (TokenKind × List TokenRange)) (tr : TokenRange)
    (htok : tokenTask .EnumValueName σ exc (sm.getD identMatcher) =
      .ok (σ', app))
    (htr : ((tmGet app .EnumValueName).getD []).head? = some tr) :
    (enumValueNameExceptionsTest tr.fullMatch = true →
      enumValueNameTask σ exc sm = .error .UnexpectedEnumValueName) ∧
    (enumValueNameExceptionsTest tr.fullMatch = false →
      enumValueNameTask σ exc sm = .ok (σ', app)) := by
  constructor
  · intro hex
    unfold enumValueNameTask
    simp only [htok, htr]
    rw [if_pos hex]
  · intro hex
    unfold enumValueNameTask
    simp only [htok, htr]
    rw [if_neg (by rw [hex]; decide)]

/-- C5 counterexample: the candidate `options` equals neither `option` nor
`reserved`, yet the lookup rejects it with `UnexpectedEnumValueName`
(the exception regex is a prefix test, not an equality test). -/
theorem enumValueName_prefix_counterexample :
    tokenTask .EnumValueName
        ⟨[['o', 'p', 't', 'i', 'o', 'n', 's', ' ', '=', ' ', '1', ';']],
          0, 0, []⟩ [] identMatcher =
      .ok (⟨[['o', 'p', 't', 'i', 'o', 'n', 's', ' ', '=', ' ', '1', ';']],
          0, 7, []⟩,
        [(.EnumValueName,
          [⟨['o', 'p', 't', 'i', 'o', 'n', 's'], ⟨0, 0, 0, 7⟩, true⟩])]) ∧
    ['o', 'p', 't', 'i', 'o', 'n', 's'] ≠ ['o', 'p', 't', 'i', 'o', 'n'] ∧
    ['o', 'p', 't', 'i', 'o', 'n', 's'] ≠
      ['r', 'e', 's', 'e', 'r', 'v', 'e', 'd'] ∧
    enumValueNameTask
      ⟨[['o', 'p', 't', 'i', 'o', 'n', 's', ' ', '=', ' ', '1', ';']],
        0, 0, []⟩ [] none = .error .UnexpectedEnumValueName :=
  ⟨rfl, by decide, by decide, rfl⟩

/-- C5 witness: the amended rejection rule applied to a concrete accepted
candidate (`foo`). -/
theorem enumValueName_reject_iff_witness :
    enumValueNameExceptionsTest ['f', 'o', 'o'] = false ∧
    enumValueNameTask ⟨[['f', 'o', 'o', ' ', '=', ' ', '1', ';']], 0, 0, []⟩
        [] none =
      .ok (⟨[['f', 'o', 'o', ' ', '=', ' ', '1', ';']], 0, 3, []⟩,
        [(.EnumValueName, [⟨['f', 'o', 'o'], ⟨0, 0, 0, 3⟩, true⟩])]) :=
  ⟨rfl,
    (enumValueName_reject_iff
      ⟨[['f', 'o', 'o', ' ', '=', ' ', '1', ';']], 0, 0, []⟩ [] none
      ⟨[['f', 'o', 'o', ' ', '=', ' ', '1', ';']], 0, 3, []⟩
      [(.EnumValueName, [⟨['f', 'o', 'o'], ⟨0, 0, 0, 3⟩, true⟩])]
      ⟨['f', 'o', 'o'], ⟨0, 0, 0, 3⟩, true⟩ rfl rfl).2 rfl⟩

/-- C3 (amended): field-type resolution.  With no cardinality recorded in
the session, up to two candidates are matched in the search range; if the
first candidate's text passes the **unanchored** cardinality regex test
(`required|optional|repeated`, true whenever the text merely contains one
of the keywords), that candidate is recorded as cardinality and the
second becomes the type candidate, otherwise the first alone is the type
candidate.  The type candidate is validated: with cardinality present,
text equal to `group` fails with `UnexpectedGroup`; with cardinality
absent, text passing the exception regex
`^group|message|enum|oneof|reserved|extensions|extend|option|required|optional|repeated`
(a prefix test for `group`, a substring test for the rest) fails with
`UnexpectedFieldType`; otherwise the type token is returned. -/
theorem fieldType_resolution (m : RegexMatcher) (σ : ScanState)
    (exc : List TokenRange) (range : Rng) (restRanges : List Rng)
    (hexc : excludeLineRanges σ.line exc = .ok (range :: restRanges)) :
    (((tmGet σ.tokens .FieldCardinality).getD []).head? = none →
      ∀ c1 c2 : MatchRange,
        matchRanges σ.line range m σ.lastIndex 2 = [c1, c2] →
        cardinalityTest (σ.getText c1.range) = true →
        ((σ.getText c2.range = "group".toList →
            fieldTypeTask m σ exc = .error .UnexpectedGroup) ∧
          (σ.getText c2.range ≠ "group".toList →
            fieldTypeTask m σ exc =
              .ok ({ σ with
                  tokens := upsert σ.tokens
                    [(.FieldCardinality, [⟨c1.fullMatch, c1.range, true⟩])],
                  lastIndex := c2.range.endChar },
                [(.FieldType, [⟨c2.fullMatch, c2.range, true⟩])])))) ∧
    (((tmGet σ.tokens .FieldCardinality).getD []).head? = none →
      ∀ (c1 : MatchRange) (others : List MatchRange),
        matchRanges σ.line range m σ.lastIndex 2 = c1 :: others →
        cardinalityTest (σ.getText c1.range) = false →
        ((fieldDeclExceptionsTest (σ.getText c1.range) = true →
            fieldTypeTask m σ exc = .error .UnexpectedFieldType) ∧
          (fieldDeclExceptionsTest (σ.getText c1.range) = false →
            fieldTypeTask m σ exc =
              .ok ({ σ with lastIndex := c1.range.endChar },
                [(.FieldType, [⟨c1.fullMatch, c1.range, true⟩])])))) ∧
    (∀ card : TokenRange,
      ((tmGet σ.tokens .FieldCardinality).getD []).head? = some card →
      ∀ (c1 : MatchRange) (others : List MatchRange),
        matchRanges σ.line range m σ.lastIndex 1 = c1 :: others →
        ((σ.getText c1.range = "group".toList →
            fieldTypeTask m σ exc = .error .UnexpectedGroup) ∧
          (σ.getText c1.range ≠ "group".toList →
            fieldTypeTask m σ exc =
              .ok ({ σ with lastIndex := c1.range.endChar },
                [(.FieldType, [⟨c1.fullMatch, c1.range, true⟩])])))) := by
  have hstep : ∀ c : Option TokenRange,
      ((tmGet σ.tokens .FieldCardinality).getD []).head? = c →
      fieldTypeTask m σ exc = fieldTypeLoop m σ c (range :: restRanges) := by
    intro c hc
    unfold fieldTypeTask
    rw [hexc, hc]
  refine ⟨?_, ?_, ?_⟩
  · intro hc c1 c2 hm hcard
    have hrun : fieldTypeTask m σ exc =
        fieldTypeFinish
          { σ with
            tokens := upsert σ.tokens
              [(.FieldCardinality, [⟨c1.fullMatch, c1.range, true⟩])],
            lastIndex := c1.range.endChar }
          (some ⟨c1.fullMatch, c1.range, true⟩) c2 := by
      rw [hstep none hc]
      conv_lhs => unfold fieldTypeLoop
      have hm' : matchRanges σ.line range m σ.lastIndex
          (if (none : Option TokenRange).isSome then 1 else 2) = [c1, c2] := hm
      simp only [hm']
      rw [if_pos ⟨rfl, hcard⟩]
      rfl
    constructor
    · intro hg
      rw [hrun]
      unfold fieldTypeFinish validateFieldType
      rw [if_pos ⟨rfl, hg⟩]
    · intro hg
      rw [hrun]
      unfold fieldTypeFinish validateFieldType
      rw [if_neg (fun hand => hg hand.2), if_neg (by simp)]
  · intro hc c1 others hm hcard
    have hrun : fieldTypeTask m σ exc = fieldTypeFinish σ none c1 := by
      rw [hstep none hc]
      conv_lhs => unfold fieldTypeLoop
      have hm' : matchRanges σ.line range m σ.lastIndex
          (if (none : Option TokenRange).isSome then 1 else 2) = c1 :: others :=
        hm
      simp only [hm']
      rw [if_neg (by rw [hcard]; simp)]
    constructor
    · intro hex
      rw [hrun]
      unfold fieldTypeFinish validateFieldType
      rw [if_neg (by simp), if_pos ⟨rfl, hex⟩]
    · intro hex
      rw [hrun]
      unfold fieldTypeFinish validateFieldType
      rw [if_neg (by simp), if_neg (by rw [hex]; simp)]
  · intro card hc c1 others hm
    have hrun : fieldTypeTask m σ exc = fieldTypeFinish σ (some card) c1 := by
      rw [hstep (some card) hc]
      conv_lhs => unfold fieldTypeLoop
      have hm' : matchRanges σ.line range m σ.lastIndex
          (if (some card : Option TokenRange).isSome then 1 else 2) =
            c1 :: others := hm
      simp only [hm']
      rw [if_neg (by simp)]
    constructor
    · intro hg
      rw [hrun]
      unfold fieldTypeFinish validateFieldType
      rw [if_pos ⟨rfl, hg⟩]
    · intro hg
      rw [hrun]
      unfold fieldTypeFinish validateFieldType
      rw [if_neg (fun hand => hg hand.2), if_neg (by simp)]

/-- C3 counterexample: on the line `Tmessage foo` the first `FIELD_TYPE`
candidate is `Tmessage`, which is none of the eleven keywords of the
claim's exception list, yet field-type resolution fails with
`UnexpectedFieldType` (the validation is a regex test that matches
`message` as a substring, not an equality against the list). -/
theorem fieldType_keyword_match_counterexample :
    excludeLineRanges
        (⟨0, ['T', 'm', 'e', 's', 's', 'a', 'g', 'e', ' ', 'f', 'o', 'o']⟩ :
          TextLine) [] = .ok [⟨0, 0, 0, 12⟩] ∧
    matchRanges
        (⟨0, ['T', 'm', 'e', 's', 's', 'a', 'g', 'e', ' ', 'f', 'o', 'o']⟩ :
          TextLine) ⟨0, 0, 0, 12⟩ fieldTypeMatcher 0 2 =
      [⟨['T', 'm', 'e', 's', 's', 'a', 'g', 'e'], ⟨0, 0, 0, 8⟩⟩,
        ⟨['f', 'o', 'o'], ⟨0, 9, 0, 12⟩⟩] ∧
    (∀ kw ∈ [['g', 'r', 'o', 'u', 'p'], ['m', 'e', 's', 's', 'a', 'g', 'e'],
        ['e', 'n', 'u', 'm'], ['o', 'n', 'e', 'o', 'f'],
        ['r', 'e', 's', 'e', 'r', 'v', 'e', 'd'],
        ['e', 'x', 't', 'e', 'n', 's', 'i', 'o', 'n', 's'],
        ['e', 'x', 't', 'e', 'n', 'd'], ['o', 'p', 't', 'i', 'o', 'n'],
        ['r', 'e', 'q', 'u', 'i', 'r', 'e', 'd'],
        ['o', 'p', 't', 'i', 'o', 'n', 'a', 'l'],
        ['r', 'e', 'p', 'e', 'a', 't', 'e', 'd']],
      ['T', 'm', 'e', 's', 's', 'a', 'g', 'e'] ≠ kw) ∧
    fieldTypeTask fieldTypeMatcher
      ⟨[['T', 'm', 'e', 's', 's', 'a', 'g', 'e', ' ', 'f', 'o', 'o']],
        0, 0, []⟩ [] = .error .UnexpectedFieldType :=
  ⟨rfl, rfl, by decide, rfl⟩

/-- C3 witness: the amended resolution applied to the line
`repeated string names` — the first candidate `repeated` is recorded as
cardinality and the second candidate `string` is returned as the field
type. -/
theorem fieldType_resolution_witness :
    matchRanges
        (⟨0, ['r', 'e', 'p', 'e', 'a', 't', 'e', 'd', ' ', 's', 't', 'r', 'i',
          'n', 'g', ' ', 'n', 'a', 'm', 'e', 's']⟩ : TextLine)
        ⟨0, 0, 0, 21⟩ fieldTypeMatcher 0 2 =
      [⟨['r', 'e', 'p', 'e', 'a', 't', 'e', 'd'], ⟨0, 0, 0, 8⟩⟩,
        ⟨['s', 't', 'r', 'i', 'n', 'g'], ⟨0, 9, 0, 15⟩⟩] ∧
    fieldTypeTask fieldTypeMatcher
        ⟨[['r', 'e', 'p', 'e', 'a', 't', 'e', 'd', ' ', 's', 't', 'r', 'i',
          'n', 'g', ' ', 'n', 'a', 'm', 'e', 's']], 0, 0, []⟩ [] =
      .ok (⟨[['r', 'e', 'p', 'e', 'a', 't', 'e', 'd', ' ', 's', 't', 'r', 'i',
            'n', 'g', ' ', 'n', 'a', 'm', 'e', 's']], 0, 15,
          [(.FieldCardinality,
            [⟨['r', 'e', 'p', 'e', 'a', 't', 'e', 'd'], ⟨0, 0, 0, 8⟩, true⟩])]⟩,
        [(.FieldType,
          [⟨['s', 't', 'r', 'i', 'n', 'g'], ⟨0, 9, 0, 15⟩, true⟩])]) :=
  ⟨rfl,
    ((fieldType_resolution fieldTypeMatcher
        ⟨[['r', 'e', 'p', 'e', 'a', 't', 'e', 'd', ' ', 's', 't', 'r', 'i',
          'n', 'g', ' ', 'n', 'a', 'm', 'e', 's']], 0, 0, []⟩ []
        ⟨0, 0, 0, 21⟩ [] rfl).1 rfl
      ⟨['r', 'e', 'p', 'e', 'a', 't', 'e', 'd'], ⟨0, 0, 0, 8⟩⟩
      ⟨['s', 't', 'r', 'i', 'n', 'g'], ⟨0, 9, 0, 15⟩⟩ rfl rfl).2 (by decide)⟩
